import Mathlib

/-!
Verification development for the `jotai-history-global` repository.

The repository implements a global undo/redo system for Jotai atoms:
* `src/diffUtils.ts` — a structural diff/patch engine (`createDiff`,
  `applyDiff`, `reverseDiff`);
* `src/historyManager.ts` — the global history stack (`pushToHistory`,
  `startGroupOperation`, `endGroupOperation`, atom registry);
* `src/useHistory.ts` — the undo/redo controller;
* `src/atomWithHistory.ts` — the tracked-atom wrapper.

Embedding choices, used consistently below:
* JavaScript values are modelled by the inductive type `Value`
  (undefined, null, booleans, numbers as integers, strings, arrays,
  plain objects).  Numbers carry no arithmetic in the source — only
  `===` comparisons — so `Int` is an adequate model (`NaN`/float
  idiosyncrasies are outside the modelled domain).
* JavaScript objects are modelled as string-keyed finite maps in a
  canonical representation: association lists whose keys are strictly
  increasing in the fixed order `keyLt`.  Property access is `lookupF`,
  property assignment is `setField` (which keeps the canonical form),
  property deletion is `delField`.  Key insertion order — observable in
  JS via enumeration but irrelevant to every specified property — is
  not modelled.
* `===` on this domain is structural equality of `Value`
  (the domain has no aliasing, so reference identity of composites is
  modelled as structural identity).
* JS `undefined` is the value `Value.vUndef`; optional fields that the
  source tests with `!== undefined` (array-item `value`, entry
  `fullValue`) are modelled as plain `Value` fields defaulting to
  `vUndef`, exactly mirroring the sentinel use in the source.
-/

namespace JotaiHistory

/-- Model of the JavaScript values the diff engine operates on. -/
inductive Value where
  | vUndef : Value
  | vNull : Value
  | vBool : Bool → Value
  | vNum : Int → Value
  | vStr : String → Value
  | vArr : List Value → Value
  | vObj : List (String × Value) → Value

mutual
/-- Structural equality of values: the model of `===` on the aliasing-free
domain (JS `===` on primitives is value equality; composite values in this
model are identified with their structure). -/
def veq : Value → Value → Bool
  | .vUndef, .vUndef => true
  | .vNull, .vNull => true
  | .vBool a, .vBool b => a == b
  | .vNum a, .vNum b => a == b
  | .vStr a, .vStr b => a == b
  | .vArr a, .vArr b => veqL a b
  | .vObj a, .vObj b => veqF a b
  | _, _ => false

/-- Elementwise structural equality of value lists. -/
def veqL : List Value → List Value → Bool
  | [], [] => true
  | a :: as, b :: bs => veq a b && veqL as bs
  | _, _ => false

/-- Fieldwise structural equality of object field lists. -/
def veqF : List (String × Value) → List (String × Value) → Bool
  | [], [] => true
  | (k, v) :: as, (k2, v2) :: bs => k == k2 && veq v v2 && veqF as bs
  | _, _ => false
end

/-- Size of a value member of a field list bounds from below the size of
the list. -/
theorem sizeOf_snd_lt_of_mem {k : String} {v : Value}
    {fs : List (String × Value)} (h : (k, v) ∈ fs) : sizeOf v < sizeOf fs := by
  have h1 : sizeOf (k, v) < sizeOf fs := List.sizeOf_lt_of_mem h
  have h2 : sizeOf v < sizeOf (k, v) := by simp
  omega

theorem veqL_iff_of {xs : List Value}
    (ih : ∀ x ∈ xs, ∀ b, veq x b = true ↔ x = b) :
    ∀ ys, veqL xs ys = true ↔ xs = ys := by
  induction xs with
  | nil => intro ys; cases ys <;> simp [veqL]
  | cons x xs ihL =>
    intro ys
    cases ys with
    | nil => simp [veqL]
    | cons y ys =>
      have hx := ih x (by simp)
      simp [veqL, Bool.and_eq_true, hx y,
        ihL (fun z hz b => ih z (by simp [hz]) b) ys]

theorem veqF_iff_of {fs : List (String × Value)}
    (ih : ∀ p ∈ fs, ∀ b, veq p.2 b = true ↔ p.2 = b) :
    ∀ gs, veqF fs gs = true ↔ fs = gs := by
  induction fs with
  | nil => intro gs; cases gs <;> simp [veqF]
  | cons p fs ihL =>
    intro gs
    obtain ⟨k, v⟩ := p
    cases gs with
    | nil => simp [veqF]
    | cons q gs =>
      obtain ⟨k2, v2⟩ := q
      have hv := ih (k, v) (by simp) v2
      simp only [veqF, Bool.and_eq_true, beq_iff_eq, hv,
        ihL (fun z hz b => ih z (by simp [hz]) b) gs,
        List.cons.injEq, Prod.mk.injEq]

theorem veq_iff_aux : ∀ n : Nat, ∀ a, sizeOf a ≤ n → ∀ b, veq a b = true ↔ a = b := by
  intro n
  induction n with
  | zero => intro a ha; exfalso; cases a <;> simp at ha
  | succ n ih =>
    intro a ha b
    cases a with
    | vUndef => cases b <;> simp [veq]
    | vNull => cases b <;> simp [veq]
    | vBool x => cases b <;> simp [veq]
    | vNum x => cases b <;> simp [veq]
    | vStr x => cases b <;> simp [veq]
    | vArr xs =>
      cases b <;> simp only [veq, Bool.false_eq_true, false_iff] <;>
        try exact fun h => Value.noConfusion h
      case vArr ys =>
        have hsz : sizeOf xs ≤ n := by simp at ha; omega
        have ihx : ∀ x ∈ xs, ∀ b, veq x b = true ↔ x = b := by
          intro x hx b
          exact ih x (by have := List.sizeOf_lt_of_mem hx; omega) b
        simp [veqL_iff_of ihx ys]
    | vObj fs =>
      cases b <;> simp only [veq, Bool.false_eq_true, false_iff] <;>
        try exact fun h => Value.noConfusion h
      case vObj gs =>
        have hsz : sizeOf fs ≤ n := by simp at ha; omega
        have ihx : ∀ p ∈ fs, ∀ b, veq p.2 b = true ↔ p.2 = b := by
          intro p hp b
          obtain ⟨k, v⟩ := p
          exact ih v (by have := sizeOf_snd_lt_of_mem hp; omega) b
        simp [veqF_iff_of ihx gs]

/-- Structural equality decides propositional equality of values. -/
theorem veq_iff (a b : Value) : veq a b = true ↔ a = b :=
  veq_iff_aux (sizeOf a) a le_rfl b

instance : DecidableEq Value := fun a b => decidable_of_iff (veq a b = true) (veq_iff a b)

/-! Canonical-map infrastructure.  A fixed strict total order on keys
(`keyLt`, lexicographic on code points) makes the sorted association list
a canonical representative of a string-keyed finite map. -/

/-- Strict lexicographic order on character lists, by code point. -/
def strLt : List Char → List Char → Bool
  | [], [] => false
  | [], _ :: _ => true
  | _ :: _, [] => false
  | a :: as, b :: bs =>
    if a.toNat < b.toNat then true
    else if b.toNat < a.toNat then false
    else strLt as bs

/-- Strict total order on object keys. -/
def keyLt (a b : String) : Bool := strLt a.data b.data

theorem strLt_irrefl : ∀ l, strLt l l = false := by
  intro l
  induction l with
  | nil => rfl
  | cons a l ih => simp [strLt, ih]

theorem strLt_trans : ∀ a b c, strLt a b = true → strLt b c = true → strLt a c = true := by
  intro a
  induction a with
  | nil =>
    intro b c hab hbc
    cases b <;> cases c <;> simp_all [strLt]
  | cons x xs ih =>
    intro b c hab hbc
    cases b with
    | nil => simp [strLt] at hab
    | cons y ys =>
      cases c with
      | nil => simp [strLt] at hbc
      | cons z zs =>
        simp only [strLt] at hab hbc ⊢
        by_cases h1 : x.toNat < y.toNat <;> by_cases h2 : y.toNat < z.toNat <;>
          simp only [h1, h2, if_pos, if_neg, if_true, if_false, ite_true, ite_false,
            Bool.ite_eq_true_distrib] at hab hbc <;> simp_all
        · omega
        · omega
        · omega
        · exact Or.inr ⟨by omega, ih ys zs hab.2 hbc.2⟩

theorem charToNat_inj {a b : Char} (h : a.toNat = b.toNat) : a = b :=
  Char.ext (UInt32.ext h)

theorem strLt_conn : ∀ a b, strLt a b = false → strLt b a = false → a = b := by
  intro a
  induction a with
  | nil => intro b h1 _; cases b with
    | nil => rfl
    | cons y ys => simp [strLt] at h1
  | cons x xs ih =>
    intro b h1 h2
    cases b with
    | nil => simp [strLt] at h2
    | cons y ys =>
      simp only [strLt] at h1 h2
      by_cases hxy : x.toNat < y.toNat
      · simp [hxy] at h1
      · by_cases hyx : y.toNat < x.toNat
        · simp [hxy, hyx] at h2
        · have hx : x = y := charToNat_inj (by omega)
          subst hx
          simp [hxy] at h1 h2
          exact by rw [ih ys h1 h2]

theorem keyLt_irrefl (k : String) : keyLt k k = false := strLt_irrefl _

theorem keyLt_trans {a b c : String} (h1 : keyLt a b = true) (h2 : keyLt b c = true) :
    keyLt a c = true := strLt_trans _ _ _ h1 h2

theorem keyLt_conn {a b : String} (h1 : keyLt a b = false) (h2 : keyLt b a = false) :
    a = b := String.ext (strLt_conn _ _ h1 h2)

theorem keyLt_asymm {a b : String} (h : keyLt a b = true) : keyLt b a = false := by
  by_contra hc
  have hba : keyLt b a = true := by
    cases hh : keyLt b a with
    | false => exact absurd hh hc
    | true => rfl
  have := keyLt_trans h hba
  rw [keyLt_irrefl] at this
  exact Bool.noConfusion this

theorem keyLt_ne {a b : String} (h : keyLt a b = true) : a ≠ b := by
  intro he; subst he; rw [keyLt_irrefl] at h; exact Bool.noConfusion h

/-- Property access on an object: the first binding of the key, as in JS
(keys are unique in any real object, and in the canonical form). -/
def lookupF {β : Type} : List (String × β) → String → Option β
  | [], _ => none
  | (k, v) :: rest, key => if k = key then some v else lookupF rest key

/-- Property assignment `obj[key] = v` on the canonical form: replaces the
binding in place when the key is present, otherwise inserts it at its
sorted position. -/
def setField {β : Type} : List (String × β) → String → β → List (String × β)
  | [], key, v => [(key, v)]
  | (k, w) :: rest, key, v =>
    if keyLt key k then (key, v) :: (k, w) :: rest
    else if key = k then (key, v) :: rest
    else (k, w) :: setField rest key v

/-- Property deletion `delete obj[key]`: removes the binding of the key,
if any. -/
def delField {β : Type} : List (String × β) → String → List (String × β)
  | [], _ => []
  | (k, w) :: rest, key => if k = key then rest else (k, w) :: delField rest key

/-- The canonical-form invariant: keys strictly increasing in `keyLt`. -/
def keysSorted {β : Type} : List (String × β) → Bool
  | [] => true
  | [_] => true
  | (k1, _) :: (k2, v2) :: rest =>
    keyLt k1 k2 && keysSorted ((k2, v2) :: rest)

theorem keysSorted_tail {β : Type} {p : String × β} {rest : List (String × β)}
    (h : keysSorted (p :: rest) = true) : keysSorted rest = true := by
  obtain ⟨k, v⟩ := p
  cases rest with
  | nil => rfl
  | cons q t =>
    obtain ⟨k2, v2⟩ := q
    simp only [keysSorted, Bool.and_eq_true] at h
    exact h.2

theorem keysSorted_head_lt_all {β : Type} :
    ∀ (rest : List (String × β)) (k : String) (v : β),
      keysSorted ((k, v) :: rest) = true → ∀ q ∈ rest, keyLt k q.1 = true := by
  intro rest
  induction rest with
  | nil => intro k v _ q hq; cases hq
  | cons p t ih =>
    intro k v h q hq
    obtain ⟨k2, v2⟩ := p
    simp only [keysSorted, Bool.and_eq_true] at h
    rw [List.mem_cons] at hq
    rcases hq with hq | hq
    · subst hq; exact h.1
    · exact keyLt_trans h.1 (ih k2 v2 h.2 q hq)

theorem keysSorted_head_lt {β : Type} {k : String} {v : β} {rest : List (String × β)}
    (h : keysSorted ((k, v) :: rest) = true) {q : String × β} (hq : q ∈ rest) :
    keyLt k q.1 = true :=
  keysSorted_head_lt_all rest k v h q hq

theorem keysSorted_cons {β : Type} {k : String} {v : β} {rest : List (String × β)}
    (hr : keysSorted rest = true) (hlt : ∀ q ∈ rest, keyLt k q.1 = true) :
    keysSorted ((k, v) :: rest) = true := by
  cases rest with
  | nil => rfl
  | cons p t =>
    obtain ⟨k2, v2⟩ := p
    simp only [keysSorted, Bool.and_eq_true]
    exact ⟨hlt (k2, v2) (by simp), hr⟩

theorem lookupF_eq_none_iff {β : Type} (l : List (String × β)) (k : String) :
    lookupF l k = none ↔ k ∉ l.map Prod.fst := by
  induction l with
  | nil => simp [lookupF]
  | cons p t ih =>
    obtain ⟨k0, v0⟩ := p
    by_cases h : k0 = k
    · subst h; simp [lookupF]
    · rw [lookupF, if_neg h, ih]
      simp only [List.map_cons, List.mem_cons]
      constructor
      · intro hn hor
        rcases hor with hor | hor
        · exact h hor.symm
        · exact hn hor
      · intro hn hm
        exact hn (Or.inr hm)

theorem lookupF_some_mem {β : Type} :
    ∀ {l : List (String × β)} {k : String} {v : β},
      lookupF l k = some v → (k, v) ∈ l := by
  intro l
  induction l with
  | nil => intro k v h; cases h
  | cons p t ih =>
    intro k v h
    obtain ⟨k0, w⟩ := p
    rw [lookupF] at h
    by_cases he : k0 = k
    · subst he
      rw [if_pos rfl] at h
      injection h with h
      subst h
      exact List.mem_cons_self _ _
    · rw [if_neg he] at h
      exact List.mem_cons_of_mem _ (ih h)

theorem lookupF_none_of_head_sorted {β : Type} {k : String} {v : β}
    {rest : List (String × β)} (h : keysSorted ((k, v) :: rest) = true) :
    lookupF rest k = none := by
  rw [lookupF_eq_none_iff]
  intro hk
  obtain ⟨q, hq, hfst⟩ := List.mem_map.mp hk
  have h2 := keysSorted_head_lt h hq
  rw [hfst] at h2
  rw [keyLt_irrefl] at h2
  exact Bool.noConfusion h2

theorem lookupF_setField {β : Type} :
    ∀ (l : List (String × β)) (k : String) (v : β) (k' : String),
      lookupF (setField l k v) k' = if k' = k then some v else lookupF l k' := by
  intro l
  induction l with
  | nil =>
    intro k v k'
    by_cases h : k' = k
    · subst h; simp [setField, lookupF]
    · have h2 : ¬ k = k' := fun hc => h hc.symm
      simp [setField, lookupF, h, h2]
  | cons p t ih =>
    intro k v k'
    obtain ⟨k0, w⟩ := p
    by_cases h1 : keyLt k k0 = true
    · simp only [setField, h1, if_true]
      by_cases h : k' = k
      · subst h; simp [lookupF]
      · have h2 : ¬ k = k' := fun hc => h hc.symm
        simp [lookupF, h, h2]
    · by_cases h2 : k = k0
      · subst h2
        have e : setField ((k, w) :: t) k v = (k, v) :: t := by
          simp [setField, h1]
        rw [e]
        by_cases h : k' = k
        · subst h; simp [lookupF]
        · have h3 : ¬ k = k' := fun hc => h hc.symm
          simp [lookupF, h, h3]
      · have e : setField ((k0, w) :: t) k v = (k0, w) :: setField t k v := by
          simp [setField, h1, h2]
        rw [e]
        by_cases h3 : k0 = k'
        · subst h3
          have h4 : ¬ k0 = k := h2 ∘ Eq.symm
          simp [lookupF, h4]
        · simp [lookupF, h3, ih]

theorem setField_key_cases {β : Type} :
    ∀ (l : List (String × β)) (k : String) (v : β) (q : String × β),
      q ∈ setField l k v → q.1 = k ∨ q ∈ l := by
  intro l
  induction l with
  | nil =>
    intro k v q hq
    simp only [setField, List.mem_singleton] at hq
    subst hq; exact Or.inl rfl
  | cons p t ih =>
    intro k v q hq
    obtain ⟨k0, w⟩ := p
    by_cases h1 : keyLt k k0 = true
    · simp only [setField, h1, if_true, List.mem_cons] at hq
      rcases hq with hq | hq | hq
      · subst hq; exact Or.inl rfl
      · exact Or.inr (by rw [List.mem_cons]; exact Or.inl hq)
      · exact Or.inr (by rw [List.mem_cons]; exact Or.inr hq)
    · by_cases h2 : k = k0
      · subst h2
        have e : setField ((k, w) :: t) k v = (k, v) :: t := by
          simp [setField, h1]
        rw [e, List.mem_cons] at hq
        rcases hq with hq | hq
        · subst hq; exact Or.inl rfl
        · exact Or.inr (List.mem_cons_of_mem _ hq)
      · have e : setField ((k0, w) :: t) k v = (k0, w) :: setField t k v := by
          simp [setField, h1, h2]
        rw [e, List.mem_cons] at hq
        rcases hq with hq | hq
        · subst hq; exact Or.inr (List.mem_cons_self _ _)
        · rcases ih k v q hq with h | h
          · exact Or.inl h
          · exact Or.inr (List.mem_cons_of_mem _ h)

theorem keysSorted_setField {β : Type} :
    ∀ (l : List (String × β)) (k : String) (v : β),
      keysSorted l = true → keysSorted (setField l k v) = true := by
  intro l
  induction l with
  | nil => intro k v _; rfl
  | cons p t ih =>
    intro k v h
    obtain ⟨k0, w⟩ := p
    by_cases h1 : keyLt k k0 = true
    · simp only [setField, h1, if_true]
      refine keysSorted_cons h ?_
      intro q hq
      rw [List.mem_cons] at hq
      rcases hq with hq | hq
      · subst hq; exact h1
      · exact keyLt_trans h1 (keysSorted_head_lt h hq)
    · by_cases h2 : k = k0
      · subst h2
        have e : setField ((k, w) :: t) k v = (k, v) :: t := by
          simp [setField, h1]
        rw [e]
        exact keysSorted_cons (keysSorted_tail h) (fun q hq => keysSorted_head_lt h hq)
      · have e : setField ((k0, w) :: t) k v = (k0, w) :: setField t k v := by
          simp [setField, h1, h2]
        rw [e]
        have hk0k : keyLt k0 k = true := by
          cases hc : keyLt k0 k with
          | true => rfl
          | false =>
            exact absurd (keyLt_conn (by
              cases hd : keyLt k k0 with
              | true => exact absurd hd h1
              | false => rfl) hc) h2
        refine keysSorted_cons (ih k v (keysSorted_tail h)) ?_
        intro q hq
        rcases setField_key_cases t k v q hq with hq1 | hq1
        · rw [hq1]; exact hk0k
        · exact keysSorted_head_lt h hq1

theorem lookupF_delField {β : Type} :
    ∀ (l : List (String × β)) (k : String), keysSorted l = true → ∀ k' : String,
      lookupF (delField l k) k' = if k' = k then none else lookupF l k' := by
  intro l
  induction l with
  | nil => intro k _ k'; simp [delField, lookupF]
  | cons p t ih =>
    intro k h k'
    obtain ⟨k0, w⟩ := p
    by_cases h1 : k0 = k
    · subst h1
      have e : delField ((k0, w) :: t) k0 = t := by simp [delField]
      rw [e]
      by_cases h2 : k' = k0
      · subst h2
        rw [if_pos rfl]
        exact lookupF_none_of_head_sorted h
      · rw [if_neg h2, lookupF, if_neg (fun hc : k0 = k' => h2 hc.symm)]
    · have e : delField ((k0, w) :: t) k = (k0, w) :: delField t k := by
        simp [delField, h1]
      rw [e, lookupF]
      by_cases h2 : k0 = k'
      · subst h2
        rw [if_pos rfl, if_neg (fun hc : k0 = k => h1 hc), lookupF, if_pos rfl]
      · rw [if_neg h2, ih k (keysSorted_tail h) k']
        by_cases h3 : k' = k
        · rw [if_pos h3, if_pos h3]
        · rw [if_neg h3, if_neg h3, lookupF, if_neg h2]

theorem delField_subset {β : Type} :
    ∀ (l : List (String × β)) (k : String) (q : String × β),
      q ∈ delField l k → q ∈ l := by
  intro l
  induction l with
  | nil => intro k q hq; cases hq
  | cons p t ih =>
    intro k q hq
    obtain ⟨k0, w⟩ := p
    by_cases h1 : k0 = k
    · simp only [delField, h1, if_pos rfl] at hq
      exact List.mem_cons_of_mem _ hq
    · simp only [delField, h1, if_false] at hq
      rw [List.mem_cons] at hq
      rcases hq with hq | hq
      · subst hq; exact List.mem_cons_self _ _
      · exact List.mem_cons_of_mem _ (ih k q hq)

theorem keysSorted_delField {β : Type} :
    ∀ (l : List (String × β)) (k : String),
      keysSorted l = true → keysSorted (delField l k) = true := by
  intro l
  induction l with
  | nil => intro k _; rfl
  | cons p t ih =>
    intro k h
    obtain ⟨k0, w⟩ := p
    by_cases h1 : k0 = k
    · simp only [delField, h1, if_pos rfl]
      exact keysSorted_tail h
    · simp only [delField, h1, if_false]
      refine keysSorted_cons (ih k (keysSorted_tail h)) ?_
      intro q hq
      exact keysSorted_head_lt h (delField_subset t k q hq)

theorem sortedExt {β : Type} :
    ∀ l m : List (String × β), keysSorted l = true → keysSorted m = true →
      (∀ k, lookupF l k = lookupF m k) → l = m := by
  intro l
  induction l with
  | nil =>
    intro m _ _ hk
    cases m with
    | nil => rfl
    | cons q t =>
      obtain ⟨k2, v2⟩ := q
      have h := hk k2
      simp [lookupF] at h
  | cons p t ih =>
    intro m hl hm hk
    obtain ⟨k1, v1⟩ := p
    cases m with
    | nil =>
      have h := hk k1
      simp [lookupF] at h
    | cons q t2 =>
      obtain ⟨k2, v2⟩ := q
      by_cases h1 : keyLt k1 k2 = true
      · exfalso
        have hx := hk k1
        simp only [lookupF, if_pos rfl] at hx
        have hne : ¬ k2 = k1 := fun hc => keyLt_ne h1 hc.symm
        rw [if_neg hne] at hx
        have hnone : lookupF t2 k1 = none := by
          rw [lookupF_eq_none_iff]
          intro hmem
          obtain ⟨q, hq, hfst⟩ := List.mem_map.mp hmem
          have h2 := keysSorted_head_lt hm hq
          rw [hfst] at h2
          have h3 := keyLt_trans h1 h2
          rw [keyLt_irrefl] at h3
          exact Bool.noConfusion h3
        rw [hnone] at hx
        exact Option.noConfusion hx
      · by_cases h2 : keyLt k2 k1 = true
        · exfalso
          have hx := hk k2
          simp only [lookupF, if_pos rfl] at hx
          have hne : ¬ k1 = k2 := fun hc => keyLt_ne h2 hc.symm
          rw [if_neg hne] at hx
          have hnone : lookupF t k2 = none := by
            rw [lookupF_eq_none_iff]
            intro hmem
            obtain ⟨q, hq, hfst⟩ := List.mem_map.mp hmem
            have h3 := keysSorted_head_lt hl hq
            rw [hfst] at h3
            have h4 := keyLt_trans h2 h3
            rw [keyLt_irrefl] at h4
            exact Bool.noConfusion h4
          rw [hnone] at hx
          exact Option.noConfusion hx
        · have hkk : k1 = k2 := by
            apply keyLt_conn
            · cases hc : keyLt k1 k2 with
              | true => exact absurd hc h1
              | false => rfl
            · cases hc : keyLt k2 k1 with
              | true => exact absurd hc h2
              | false => rfl
          subst hkk
          have hv : v1 = v2 := by
            have hx := hk k1
            simp [lookupF] at hx
            exact hx
          subst hv
          have ht : t = t2 := by
            apply ih t2 (keysSorted_tail hl) (keysSorted_tail hm)
            intro k
            by_cases hkk1 : k = k1
            · subst hkk1
              rw [lookupF_none_of_head_sorted hl, lookupF_none_of_head_sorted hm]
            · have hx := hk k
              have hne : ¬ k1 = k := fun hc => hkk1 hc.symm
              simpa [lookupF, hne] using hx
          rw [ht]

/-! The diff engine (`src/diffUtils.ts`, concatenated in
`src/src/types.ts:92-334`). -/

/-- One record of an array delta (`src/src/types.ts:60-63`).  The optional
JS fields `value?`, `removed?`, `added?` default to `undefined`, modelled
as `vUndef` resp. `false` (only their truthiness is ever read). -/
structure ArrItem where
  index : Nat
  value : Value := .vUndef
  removed : Bool := false
  added : Bool := false

/-- The delta type (`src/src/types.ts:52-71`): value, array and object
deltas, discriminated by their `type` tag. -/
inductive Diff where
  | value (before after : Value) : Diff
  | arr (items : List ArrItem) : Diff
  | obj (changed : List (String × Diff)) (added : List (String × Value))
      (deleted : List String) : Diff

/-- Loop body of `createArrayDiff` (`src/src/types.ts:185-202`): the item
pushed for index `i`, if any.  `getD i vUndef` is JS array indexing (out of
range yields `undefined`); the two length guards mirror
`i >= oldArray.length` / `i >= newArray.length`. -/
def arrayItemAt (oldA newA : List Value) (i : Nat) : Option ArrItem :=
  if oldA.length ≤ i then
    some { index := i, value := newA.getD i .vUndef, added := true }
  else if newA.length ≤ i then
    some { index := i, value := oldA.getD i .vUndef, removed := true }
  else if oldA.getD i .vUndef ≠ newA.getD i .vUndef then
    some { index := i, value := newA.getD i .vUndef }
  else none

/-- `createArrayDiff` (`src/src/types.ts:180-205`): positional comparison up
to the longer length; `none` when no index differs. -/
def createArrayDiff (oldA newA : List Value) : Option Diff :=
  let items := (List.range (max oldA.length newA.length)).filterMap (arrayItemAt oldA newA)
  if items.isEmpty then none else some (.arr items)

/-- The added-keys loop of `createObjectDiff` (`src/src/types.ts:156-160`):
bindings of the new object whose key is absent from the old one. -/
def addedOf (oldFs newFs : List (String × Value)) : List (String × Value) :=
  newFs.filter (fun kv => (lookupF oldFs kv.1).isNone)

/-- The deleted-keys part of the first loop of `createObjectDiff`
(`src/src/types.ts:144-146`): keys of the old object absent from the new
one, in old-object order. -/
def deletedOf (oldFs newFs : List (String × Value)) : List String :=
  (oldFs.filter (fun kv => (lookupF newFs kv.1).isNone)).map Prod.fst

mutual
/-- `createDiff` (`src/src/types.ts:104-130`).  The source's guard chain
(`!oldValue || !newValue || typeof ≠ 'object' || Array.isArray mismatch`)
routes every pair that is not two arrays or two objects to a value delta;
arrays and objects are always truthy, so on this domain that guard is
exactly the constructor match below. -/
def createDiff (oldValue newValue : Value) : Option Diff :=
  if oldValue = newValue then none
  else
    match oldValue, newValue with
    | .vArr a, .vArr b => createArrayDiff a b
    | .vObj f1, .vObj f2 =>
        let changed := objChanged f1 f2
        let added := addedOf f1 f2
        let deleted := deletedOf f1 f2
        if changed.isEmpty && added.isEmpty && deleted.isEmpty then none
        else some (.obj changed added deleted)
    | _, _ => some (.value oldValue newValue)

/-- The changed-keys part of the first loop of `createObjectDiff`
(`src/src/types.ts:143-153`): common keys with differing values whose
recursive diff is non-null, in old-object order. -/
def objChanged : List (String × Value) → List (String × Value) → List (String × Diff)
  | [], _ => []
  | (k, v) :: rest, newFs =>
    match lookupF newFs k with
    | none => objChanged rest newFs
    | some w =>
      if v = w then objChanged rest newFs
      else
        match createDiff v w with
        | some d => (k, d) :: objChanged rest newFs
        | none => objChanged rest newFs
end

/-- Stable descending insertion sort by `index`: the model of
`items.filter(i => i.removed).sort((a, b) => b.index - a.index)`
(`src/src/types.ts:271-273`). -/
def insertDescByIndex (it : ArrItem) : List ArrItem → List ArrItem
  | [] => [it]
  | x :: xs => if x.index < it.index then it :: x :: xs else x :: insertDescByIndex it xs

/-- Sorts array-delta items by descending index (stable). -/
def sortDescByIndex (l : List ArrItem) : List ArrItem := l.foldr insertDescByIndex []

/-- One step of the addition/replacement loop of `applyArrayDiff`
(`src/src/types.ts:280-288`).  `splice(i, 0, v)` inserts at position `i`
(appending when `i` exceeds the length, as JS does); plain replacement is
guarded by `!item.removed && item.value !== undefined`.  Index assignment
past the end — which would create holes (`undefined` elements) in JS — lies
outside the modelled value domain; here it leaves the list unchanged. -/
def applyArrayStep (res : List Value) (it : ArrItem) : List Value :=
  if it.added = true then res.take it.index ++ it.value :: res.drop it.index
  else if it.removed = false ∧ it.value ≠ Value.vUndef then res.set it.index it.value
  else res

/-- `applyArrayDiff` (`src/src/types.ts:266-291`): all removals first, in
descending index order (`splice(i, 1)` is `eraseIdx`, a no-op out of
range, as in JS), then additions and replacements in listed order. -/
def applyArrayDiff (arr : List Value) (items : List ArrItem) : List Value :=
  let removals := sortDescByIndex (items.filter (fun it => it.removed))
  let afterRemovals := removals.foldl (fun res it => res.eraseIdx it.index) arr
  items.foldl applyArrayStep afterRemovals

/-- Spreading an array into a plain object (`{...arr}`), which happens when
`applyDiff` routes an object delta to an array value (arrays satisfy
`value !== null && typeof value === 'object'`): index keys become decimal
strings. -/
def arrToObj (xs : List Value) : List (String × Value) :=
  xs.enum.map (fun p => (toString p.1, p.2))

/-- The added-properties loop of `applyObjectDiff`
(`src/src/types.ts:250-253`): plain assignments. -/
def applyAdded (fs : List (String × Value)) (ad : List (String × Value)) :
    List (String × Value) :=
  ad.foldl (fun res kv => setField res kv.1 kv.2) fs

/-- The deleted-properties loop of `applyObjectDiff`
(`src/src/types.ts:255-258`). -/
def applyDeleted (fs : List (String × Value)) (del : List String) :
    List (String × Value) :=
  del.foldl (fun res k => delField res k) fs

mutual
/-- `applyDiff` (`src/src/types.ts:213-232`).  A value delta returns
`after` unconditionally; an array delta applies only to arrays; an object
delta applies to any non-null value of object type — which includes
arrays, spread into index-keyed objects by `{...obj}`; every remaining
combination falls through to the `console.warn` fallback returning the
original value. -/
def applyDiff (value : Value) (d : Diff) : Value :=
  match d with
  | .value _ after => after
  | .arr items =>
    match value with
    | .vArr xs => .vArr (applyArrayDiff xs items)
    | _ => value
  | .obj changed added deleted =>
    match value with
    | .vObj fs => .vObj (applyDeleted (applyAdded (applyChanged fs changed) added) deleted)
    | .vArr xs =>
        .vObj (applyDeleted (applyAdded (applyChanged (arrToObj xs) changed) added) deleted)
    | _ => value

/-- The changed-properties loop of `applyObjectDiff`
(`src/src/types.ts:244-248`): each changed entry is applied recursively,
but only if the key is present in the object being patched. -/
def applyChanged : List (String × Value) → List (String × Diff) → List (String × Value)
  | fs, [] => fs
  | fs, (k, cd) :: rest =>
    match lookupF fs k with
    | some v => applyChanged (setField fs k (applyDiff v cd)) rest
    | none => applyChanged fs rest
end

/-- `applyObjectDiff` (`src/src/types.ts:237-261`): shallow copy, changed
entries (recursively, existing keys only), then added entries, then
deletions. -/
def applyObjectDiff (fs : List (String × Value)) (changed : List (String × Diff))
    (added : List (String × Value)) (deleted : List String) : List (String × Value) :=
  applyDeleted (applyAdded (applyChanged fs changed) added) deleted

mutual
/-- `reverseDiff` (`src/src/types.ts:296-334`).  Value deltas swap
`before`/`after`; array items swap their `added`/`removed` flags keeping
`index`/`value`; object deltas turn `deleted` keys into `added` bindings
with `undefined` placeholder values (the deleted values were never
recorded), turn `added` keys into deletions, and reverse each `changed`
entry recursively. -/
def reverseDiff : Diff → Diff
  | .value b a => .value a b
  | .arr items => .arr (items.map (fun it =>
      { index := it.index, value := it.value, added := it.removed, removed := it.added }))
  | .obj changed added deleted =>
      .obj (revChanged changed) (deleted.map (fun k => (k, Value.vUndef))) (added.map Prod.fst)

/-- Recursive reversal of the changed entries of an object delta. -/
def revChanged : List (String × Diff) → List (String × Diff)
  | [] => []
  | (k, cd) :: rest => (k, reverseDiff cd) :: revChanged rest
end

mutual
/-- Values in canonical form: every object field list, recursively, is
strictly key-sorted — the canonical representative of its finite map. -/
def canonV : Value → Bool
  | .vArr xs => canonL xs
  | .vObj fs => keysSorted fs && canonF fs
  | _ => true

/-- Canonical form for each element of a value list. -/
def canonL : List Value → Bool
  | [] => true
  | v :: vs => canonV v && canonL vs

/-- Canonical form for each value of a field list. -/
def canonF : List (String × Value) → Bool
  | [] => true
  | (_, v) :: fs => canonV v && canonF fs
end

mutual
/-- Values containing no `undefined` anywhere. -/
def noUndef : Value → Bool
  | .vUndef => false
  | .vArr xs => noUndefL xs
  | .vObj fs => noUndefF fs
  | _ => true

/-- No `undefined` in any element of a value list. -/
def noUndefL : List Value → Bool
  | [] => true
  | v :: vs => noUndef v && noUndefL vs

/-- No `undefined` in any value of a field list. -/
def noUndefF : List (String × Value) → Bool
  | [] => true
  | (_, v) :: fs => noUndef v && noUndefF fs
end

mutual
/-- Deltas whose `reverseDiff` is information-preserving: no object
deletions (`reverseDiff` fabricates `undefined` for those) and no plain
array replacements (`reverseDiff` keeps the new value for those),
recursively through changed sub-deltas. -/
def ReversibleDiff : Diff → Bool
  | .value _ _ => true
  | .arr items => items.all (fun it => it.added || it.removed)
  | .obj changed _ deleted => deleted.isEmpty && revOkF changed

/-- Reversibility of every changed entry of an object delta. -/
def revOkF : List (String × Diff) → Bool
  | [] => true
  | (_, cd) :: rest => ReversibleDiff cd && revOkF rest
end

/-! The history stack manager (`src/unnamed/part_002`, i.e.
`src/historyManager.ts`) and the undo/redo controller
(`src/src/useHistory.ts`), modelled as transitions on an explicit system
state.  Timestamps (`Date.now()`) are passed in as a `now` parameter. -/

/-- The `diff: unknown` slot of a history entry (`src/src/types.ts:10`).
`valid` holds a structurally well-formed delta (every delta the built-in
`createDiff` produces); `unknownTag` models an object carrying an
unrecognized `type` discriminant (the `'type' in diff` guard passes, but
`reverseDiff` raises `Unknown diff type` on it while `applyDiff` falls
through to its warn-and-return-value fallback); `notADiff` models a plain
value stored in the slot with no `type` discriminant (the guard fails), as
happens in `useFullValueInstead` mode.  Raw values whose object shape
mimics a delta discriminant are outside the modelled domain. -/
inductive StoredDiff where
  | valid (d : Diff) : StoredDiff
  | unknownTag : StoredDiff
  | notADiff (v : Value) : StoredDiff

/-- A history entry (`src/src/types.ts:8-13`).  `fullValue` is optional in
the source and tested with `!== undefined`; it is modelled as a `Value`
defaulting to `vUndef`. -/
structure Entry where
  id : String
  diff : StoredDiff
  timestamp : Nat
  fullValue : Value := Value.vUndef

/-- Per-atom push options (`src/src/types.ts:33-40`,
`src/unnamed/part_002:70-74`).  `shouldTrack` and `customPatch` are not
modelled: the former defaults to `prev !== next` (inlined in `setCell`),
the latter is never invoked by the core. -/
structure PushOptions where
  historyLimit : Option Nat := none
  useFullValueInstead : Bool := false
  customDiff : Option (Value → Value → StoredDiff) := none

/-- The process-wide state of the history system: the two stacks
(`historyStackAtom`), the suppression flag
(`isHistoryOperationInProgressAtom`), the group buffer
(`currentGroupOperationAtom`, an array or null) and its flag
(`isGroupOperationInProgressAtom`), the atom registry (`atomRegistry`,
membership by id) and the store of current atom values (`historyStore`;
every atom has a current value). -/
structure Sys where
  past : List Entry
  future : List Entry
  histFlag : Bool
  group : Option (List Entry)
  groupFlag : Bool
  registry : String → Bool
  store : String → Value

/-- `options?.historyLimit || DEFAULT_HISTORY_LIMIT`
(`src/unnamed/part_002:76`): JS `||` falls back on the default 50 for a
missing or zero limit. -/
def limitOf (o : PushOptions) : Nat :=
  match o.historyLimit with
  | some n => if n = 0 then 50 else n
  | none => 50

/-- Entry construction in `pushToHistory` (`src/unnamed/part_002:78-120`):
full-value mode stores the previous value in both the delta slot and
`fullValue`; custom-diff mode stores the opaque result; default mode runs
`createDiff`, records nothing when it returns null, and attaches
`fullValue = prev` for complex deltas (more than 10 changed keys or more
than 20 array items).  The source attaches `fullValue` only when it is not
`undefined`; with the `vUndef` sentinel, storing `prev` directly coincides
with that check. -/
def mkEntryOpt (id : String) (prev next : Value) (o : PushOptions) (now : Nat) :
    Option Entry :=
  if o.useFullValueInstead = true then
    some { id := id, diff := .notADiff prev, timestamp := now, fullValue := prev }
  else
    match o.customDiff with
    | some f => some { id := id, diff := f prev next, timestamp := now }
    | none =>
      match createDiff prev next with
      | none => none
      | some d =>
        let complex : Bool :=
          match d with
          | .obj changed _ _ => decide (changed.length > 10)
          | .arr items => decide (items.length > 20)
          | _ => false
        some { id := id, diff := .valid d, timestamp := now,
               fullValue := if complex = true then prev else Value.vUndef }

/-- `pushToHistory` (`src/unnamed/part_002:66-145`): build the entry (or
bail out on a null diff), divert it into the group buffer when one is
active (the buffer is an array, truthy even when empty), otherwise append
it to `past`, shift off the oldest entry when the new length exceeds the
limit, and clear `future`. -/
def pushToHistory (σ : Sys) (id : String) (prev next : Value) (o : PushOptions)
    (now : Nat) : Sys :=
  match mkEntryOpt id prev next o now with
  | none => σ
  | some e =>
    match σ.group with
    | some buf => { σ with group := some (buf ++ [e]) }
    | none =>
      let np := σ.past ++ [e]
      let np := if np.length > limitOf o then np.tail else np
      { σ with past := np, future := [] }

/-- `startGroupOperation` (`src/unnamed/part_002:148-151`). -/
def startGroupOperation (σ : Sys) : Sys :=
  { σ with groupFlag := true, group := some [] }

/-- `endGroupOperation` (`src/unnamed/part_002:154-167`): a non-empty
buffer is spread entry-by-entry onto `past` (`[...currentStack.past,
...groupEntries]`) and `future` is cleared; in every case the buffer is
discarded and the group flag reset.  No history limit is consulted. -/
def endGroupOperation (σ : Sys) : Sys :=
  let σ1 :=
    match σ.group with
    | some buf =>
      if buf.length > 0 then { σ with past := σ.past ++ buf, future := [] } else σ
    | none => σ
  { σ1 with groupFlag := false, group := none }

/-- `groupOperations` (`src/src/useHistory.ts:196-203`): start the group,
run the callback, end the group in a `finally`. -/
def groupOperations (σ : Sys) (body : Sys → Sys) : Sys :=
  endGroupOperation (body (startGroupOperation σ))

/-- The setter of an atom created by `atomWithHistory`
(`src/src/useHistory.ts:257-286` of the concatenated sources): with the
default `shouldTrack` (`prev !== next`) an unchanged value is ignored
entirely (the base atom is not even written); recording is skipped while
the suppression flag is set; then the value is written. -/
def setCell (σ : Sys) (id : String) (next : Value) (o : PushOptions) (now : Nat) : Sys :=
  let prev := σ.store id
  if prev = next then σ
  else
    let σ1 := if σ.histFlag = true then σ else pushToHistory σ id prev next o now
    { σ1 with store := fun k => if k = id then next else σ1.store k }

/-- `registerHistoryAtom` (`src/unnamed/part_002:40-42`). -/
def registerHistoryAtom (σ : Sys) (id : String) : Sys :=
  { σ with registry := fun k => if k = id then true else σ.registry k }

/-- `unregisterHistoryAtom` (`src/unnamed/part_002:48-50`): removes the id
from the registry; the atom's current value is untouched. -/
def unregisterHistoryAtom (σ : Sys) (id : String) : Sys :=
  { σ with registry := fun k => if k = id then false else σ.registry k }

/-- The value `undo` restores (`src/src/useHistory.ts:51-83`): the stored
`fullValue` when present, otherwise the reversed delta applied to the
current value.  For `unknownTag`, `reverseDiff` raises and the catch-side
fallback (which requires `type === 'value'`) cannot apply, so the undo is
abandoned (`none`); likewise for `notADiff`, where the type guard itself
raises. -/
def undoRestoreValue (e : Entry) (current : Value) : Option Value :=
  if e.fullValue ≠ Value.vUndef then some e.fullValue
  else
    match e.diff with
    | .valid d => some (applyDiff current (reverseDiff d))
    | .unknownTag => none
    | .notADiff _ => none

/-- The value `redo` restores (`src/src/useHistory.ts:130-161`):
`fullValue` when present, otherwise the delta applied forward.  For
`unknownTag` the type guard passes and `applyDiff` hits its warn-fallback,
returning the current value unchanged (no exception); `notADiff` fails the
guard and the redo is abandoned. -/
def redoRestoreValue (e : Entry) (current : Value) : Option Value :=
  if e.fullValue ≠ Value.vUndef then some e.fullValue
  else
    match e.diff with
    | .valid d => some (applyDiff current d)
    | .unknownTag => some current
    | .notADiff _ => none

/-- `undo` (`src/src/useHistory.ts:32-106`).  Empty `past`: stack returned
unchanged.  Unresolved atom id: stack returned unchanged — `return
currentStack` discards the computed `newPast`, so the popped entry stays
on `past` and the suppression flag is never touched.  Otherwise the source
sets the suppression flag, computes the restore value, writes the atom (a
write the setter does not record, since the flag is set), moves the entry
to `future` with a fresh timestamp, and resets the flag in a `finally` on
every exit path, including the abandoned-restore path. -/
def undo (σ : Sys) (now : Nat) : Sys :=
  match σ.past.getLast? with
  | none => σ
  | some e =>
    if σ.registry e.id = true then
      match undoRestoreValue e (σ.store e.id) with
      | none => { σ with histFlag := false }
      | some prev =>
        { σ with
          past := σ.past.dropLast
          future := σ.future ++
            [{ id := e.id, diff := e.diff, fullValue := e.fullValue, timestamp := now }]
          store := fun k => if k = e.id then prev else σ.store k
          histFlag := false }
    else σ

/-- `redo` (`src/src/useHistory.ts:111-184`): symmetric to `undo`; pops
from `future`, applies the delta forward, pushes onto `past`. -/
def redo (σ : Sys) (now : Nat) : Sys :=
  match σ.future.getLast? with
  | none => σ
  | some e =>
    if σ.registry e.id = true then
      match redoRestoreValue e (σ.store e.id) with
      | none => { σ with histFlag := false }
      | some next =>
        { σ with
          past := σ.past ++
            [{ id := e.id, diff := e.diff, fullValue := e.fullValue, timestamp := now }]
          future := σ.future.dropLast
          store := fun k => if k = e.id then next else σ.store k
          histFlag := false }
    else σ

/-- `canUndo` (`src/src/useHistory.ts:208`). -/
def canUndo (σ : Sys) : Bool := decide (σ.past.length > 0)

/-- `canRedo` (`src/src/useHistory.ts:209`). -/
def canRedo (σ : Sys) : Bool := decide (σ.future.length > 0)

/-- `clear` (`src/src/useHistory.ts:189-191`): resets both stacks; the
registry and the stored values are untouched. -/
def clearHistory (σ : Sys) : Sys := { σ with past := [], future := [] }

/-! Concrete states used to evaluate the history claims. -/

/-- A simple valid value delta entry, cell `x`, recording 0 → 1. -/
def entX : Entry :=
  { id := "x", diff := .valid (.value (.vNum 0) (.vNum 1)), timestamp := 0 }

/-- A state whose only past entry names a cell absent from the registry. -/
def sysOrphan : Sys :=
  { past := [entX], future := [], histFlag := false, group := none,
    groupFlag := false, registry := fun _ => false, store := fun _ => .vNum 1 }

/-- A state with three registered cells `a`, `b`, `c`, all holding 0, and
empty history. -/
def sysZero : Sys :=
  { past := [], future := [], histFlag := false, group := none,
    groupFlag := false, registry := fun _ => true, store := fun _ => .vNum 0 }

/-- The state after `groupOperations` wraps three distinct cell mutations
(`a`, `b`, `c`, each 0 → 1, default options) on `sysZero`. -/
def sysAfterGroup : Sys :=
  groupOperations sysZero (fun σ =>
    setCell (setCell (setCell σ "a" (.vNum 1) {} 1) "b" (.vNum 1) {} 2)
      "c" (.vNum 1) {} 3)

/-- C3 (the library's own documentation: `groupOperations` "groups multiple
operations into a single history entry"): in fact `endGroupOperation`
spreads the buffered entries onto `past` one by one — three grouped
mutations yield three past entries, and a single undo reverts only the
third cell, leaving `a` and `b` mutated. -/
theorem C3_group_not_atomic :
    sysAfterGroup.past.length = 3 ∧
    (undo sysAfterGroup 9).past.length = 2 ∧
    (undo sysAfterGroup 9).store "a" = .vNum 1 ∧
    (undo sysAfterGroup 9).store "b" = .vNum 1 ∧
    (undo sysAfterGroup 9).store "c" = .vNum 0 :=
  ⟨rfl, rfl, rfl, rfl, rfl⟩

/-- C4 counterexample: with the single orphaned entry on `past`, `undo`
leaves the combined stacks at length 1 (the claim demands length 0) and
the entry is still the last element of `past` (the claim demands it
dropped). -/
theorem C4_counterexample :
    (undo sysOrphan 5).past.length + (undo sysOrphan 5).future.length = 1 ∧
    (undo sysOrphan 5).past.getLast? = some entX :=
  ⟨rfl, rfl⟩

/-- C4 (amended): when the last past entry's cell id is not in the
registry, `undo` does not throw and writes no cell value — but it returns
the state completely unchanged: the orphaned entry is NOT dropped and the
stacks keep their lengths. -/
theorem C4_unresolved_undo_unchanged (σ : Sys) (e : Entry) (now : Nat)
    (hl : σ.past.getLast? = some e) (hr : σ.registry e.id = false) :
    undo σ now = σ := by
  unfold undo
  rw [hl]
  simp [hr]

/-- C4 witness: the amended behaviour at the concrete orphan state. -/
theorem C4_witness : undo sysOrphan 5 = sysOrphan :=
  C4_unresolved_undo_unchanged sysOrphan entX 5 rfl rfl

/-- A state with 50 past entries, a pending redo entry and a non-empty
group buffer, about to overflow the default limit on group commit. -/
def sysFullPast : Sys :=
  { past := List.replicate 50 entX, future := [entX], histFlag := false,
    group := some [entX], groupFlag := true, registry := fun _ => true,
    store := fun _ => .vNum 1 }

/-- C5 counterexample: committing a 1-entry group on top of 50 past
entries yields 51 — `endGroupOperation` never consults the history limit,
so the claimed bound `past.length ≤ 50` fails. -/
theorem C5_counterexample : (endGroupOperation sysFullPast).past.length = 51 :=
  rfl

/-- C5 (amended): ending a group with a non-empty buffer appends the whole
buffer to `past` with no limit enforcement (nothing is evicted) and clears
`future`; an empty buffer leaves both stacks untouched; in either case the
buffer is discarded and the group flag reset. -/
theorem C5_endGroup_no_eviction (σ : Sys) (buf : List Entry)
    (hg : σ.group = some buf) :
    (buf ≠ [] → (endGroupOperation σ).past = σ.past ++ buf ∧
      (endGroupOperation σ).future = []) ∧
    (buf = [] → (endGroupOperation σ).past = σ.past ∧
      (endGroupOperation σ).future = σ.future) ∧
    (endGroupOperation σ).group = none ∧
    (endGroupOperation σ).groupFlag = false := by
  refine ⟨?_, ?_, ?_, ?_⟩
  · intro hne
    have hb : buf.length > 0 := List.length_pos.mpr hne
    simp [endGroupOperation, hg, hb]
  · intro he
    subst he
    simp [endGroupOperation, hg]
  · unfold endGroupOperation
    rw [hg]
  · unfold endGroupOperation
    rw [hg]

/-- C5 witness: the amended group-commit behaviour at the concrete
overflowing state. -/
theorem C5_witness :
    (endGroupOperation sysFullPast).past = sysFullPast.past ++ [entX] ∧
    (endGroupOperation sysFullPast).future = [] :=
  (C5_endGroup_no_eviction sysFullPast [entX] rfl).1 (by simp)

/-- C8: the re-entrancy suppression flag is false after every `undo` and
`redo` call whenever it was false before, on every exit path — the early
returns (empty stack, unresolved cell) never touch it, and all paths that
set it reset it in the modelled `finally`, including the abandoned-restore
failure path. -/
theorem C8_suppression_flag (σ : Sys) (now : Nat) (h : σ.histFlag = false) :
    (undo σ now).histFlag = false ∧ (redo σ now).histFlag = false := by
  constructor
  · cases hgl : σ.past.getLast? with
    | none => simp [undo, hgl, h]
    | some e =>
      by_cases hr : σ.registry e.id = true
      · cases hrv : undoRestoreValue e (σ.store e.id) <;>
          simp [undo, hgl, hr, hrv]
      · simp [undo, hgl, hr, h]
  · cases hgl : σ.future.getLast? with
    | none => simp [redo, hgl, h]
    | some e =>
      by_cases hr : σ.registry e.id = true
      · cases hrv : redoRestoreValue e (σ.store e.id) <;>
          simp [redo, hgl, hr, hrv]
      · simp [redo, hgl, hr, h]

/-- C8 witness: the flag invariant at a concrete state exercising the
unresolved-cell exit path. -/
theorem C8_witness :
    (undo sysOrphan 3).histFlag = false ∧ (redo sysOrphan 3).histFlag = false :=
  C8_suppression_flag sysOrphan 3 rfl

/-- Push options fixing the history limit to 50, as in the spec's eviction
scenario. -/
def opts50 : PushOptions := { historyLimit := some 50 }

/-- The state after 51 successive recording pushes (cell `c`, values
0 → 1 → … → 51, timestamps 0..50, limit 50) from the empty history. -/
def sysAfter51 : Sys :=
  (List.range 51).foldl (fun σ i => setCell σ "c" (.vNum (Int.ofNat i + 1)) opts50 i) sysZero

/-- A state whose past already holds 50 entries. -/
def sysAtLimit : Sys :=
  { past := List.replicate 50 entX, future := [], histFlag := false,
    group := none, groupFlag := false, registry := fun _ => true,
    store := fun _ => .vNum 0 }

/-- The entry the witness push of C6 records. -/
def entC : Entry :=
  { id := "c", diff := .valid (.value (.vNum 0) (.vNum 1)), timestamp := 7 }

set_option maxRecDepth 40000 in
/-- C6: a non-group recording push appends the entry and, exactly when the
new length exceeds the configured limit, shifts off the oldest entry at
the head; in particular 51 pushes at limit 50 leave 50 entries, the first
push's entry (timestamp 0) gone, and the second push's entry (timestamp 1)
at the head. -/
theorem C6_eviction (σ : Sys) (id : String) (prev next : Value)
    (o : PushOptions) (now : Nat) (e : Entry) (hg : σ.group = none)
    (he : mkEntryOpt id prev next o now = some e) :
    ((pushToHistory σ id prev next o now).past =
      if (σ.past ++ [e]).length > limitOf o then (σ.past ++ [e]).tail
      else σ.past ++ [e]) ∧
    sysAfter51.past.length = 50 ∧
    sysAfter51.past.all (fun en => en.timestamp != 0) = true ∧
    sysAfter51.past.head?.map (fun en => en.timestamp) = some 1 := by
  refine ⟨?_, rfl, rfl, rfl⟩
  simp [pushToHistory, he, hg]

/-- C6 witness: the eviction rule applied at a concrete state holding
exactly 50 entries. -/
theorem C6_witness :
    ((pushToHistory sysAtLimit "c" (.vNum 0) (.vNum 1) opts50 7).past =
      if (sysAtLimit.past ++ [entC]).length > limitOf opts50
      then (sysAtLimit.past ++ [entC]).tail
      else sysAtLimit.past ++ [entC]) ∧
    sysAfter51.past.length = 50 ∧
    sysAfter51.past.all (fun en => en.timestamp != 0) = true ∧
    sysAfter51.past.head?.map (fun en => en.timestamp) = some 1 :=
  C6_eviction sysAtLimit "c" (.vNum 0) (.vNum 1) opts50 7 entC rfl rfl

/-- C7: a non-group push that records an entry clears `future`
unconditionally; hence after an undo followed by a recording non-undo
mutation, `canRedo` is false. -/
theorem C7_future_clearing :
    (∀ σ id prev next o now, σ.group = none →
      (mkEntryOpt id prev next o now).isSome = true →
      (pushToHistory σ id prev next o now).future = []) ∧
    (∀ σ0 now1 id v o now2,
      (undo σ0 now1).group = none → (undo σ0 now1).histFlag = false →
      (undo σ0 now1).store id ≠ v →
      (mkEntryOpt id ((undo σ0 now1).store id) v o now2).isSome = true →
      canRedo (setCell (undo σ0 now1) id v o now2) = false) := by
  have hpush : ∀ σ id prev next o now, σ.group = none →
      (mkEntryOpt id prev next o now).isSome = true →
      (pushToHistory σ id prev next o now).future = [] := by
    intro σ id prev next o now hg hs
    obtain ⟨e, he⟩ := Option.isSome_iff_exists.mp hs
    simp [pushToHistory, he, hg]
  refine ⟨hpush, ?_⟩
  intro σ0 now1 id v o now2 hg hf hne hs
  have h2 := hpush (undo σ0 now1) id ((undo σ0 now1).store id) v o now2 hg hs
  simp [setCell, hne, hf, canRedo, h2]

/-- C9 counterexample: the object delta `{added: {a: 2}}` applied to the
array `[1]` does not return the array unchanged — the array is spread into
the index-keyed object `{0: 1}` and patched to `{0: 1, a: 2}`. -/
theorem C9_counterexample :
    applyDiff (.vArr [.vNum 1]) (.obj [] [("a", .vNum 2)] []) ≠ .vArr [.vNum 1] ∧
    applyDiff (.vArr [.vNum 1]) (.obj [] [("a", .vNum 2)] []) =
      .vObj [("0", .vNum 1), ("a", .vNum 2)] :=
  ⟨by decide, rfl⟩

/-- C9 (amended): an array delta applied to a non-array, and an object
delta applied to a value that is neither an object nor an array (including
null), return the value unchanged — `applyDiff` is total, signalling only a
console warning, never an exception.  But an object delta applied to an
array is not treated as a mismatch: the source's `value !== null && typeof
value === 'object'` admits arrays, which are spread into index-keyed
objects and patched. -/
theorem C9_shape_mismatch (v : Value) (d : Diff) :
    (∀ items, d = .arr items → (∀ xs, v ≠ .vArr xs) → applyDiff v d = v) ∧
    (∀ ch ad del, d = .obj ch ad del → (∀ xs, v ≠ .vArr xs) →
      (∀ fs, v ≠ .vObj fs) → applyDiff v d = v) := by
  constructor
  · intro items hd hne
    subst hd
    cases v with
    | vArr xs => exact absurd rfl (hne xs)
    | vUndef => rfl
    | vNull => rfl
    | vBool b => rfl
    | vNum n => rfl
    | vStr s => rfl
    | vObj fs => rfl
  · intro ch ad del hd hna hno
    subst hd
    cases v with
    | vArr xs => exact absurd rfl (hna xs)
    | vObj fs => exact absurd rfl (hno fs)
    | vUndef => rfl
    | vNull => rfl
    | vBool b => rfl
    | vNum n => rfl
    | vStr s => rfl

theorem applyChanged_preserves_none (ch : List (String × Diff)) :
    ∀ fs k, lookupF fs k = none → lookupF (applyChanged fs ch) k = none := by
  induction ch with
  | nil => intro fs k h; exact h
  | cons p rest ih =>
    intro fs k h
    obtain ⟨k0, cd⟩ := p
    cases hl : lookupF fs k0 with
    | none =>
      have e : applyChanged fs ((k0, cd) :: rest) = applyChanged fs rest := by
        simp [applyChanged, hl]
      rw [e]
      exact ih fs k h
    | some v =>
      have e : applyChanged fs ((k0, cd) :: rest) =
          applyChanged (setField fs k0 (applyDiff v cd)) rest := by
        simp [applyChanged, hl]
      rw [e]
      apply ih
      rw [lookupF_setField]
      have hkk : ¬ k = k0 := by
        intro hx
        subst hx
        rw [h] at hl
        exact Option.noConfusion hl
      rw [if_neg hkk]
      exact h

theorem applyAdded_preserves_none (ad : List (String × Value)) :
    ∀ fs k, lookupF fs k = none → lookupF ad k = none →
      lookupF (applyAdded fs ad) k = none := by
  induction ad with
  | nil => intro fs k h _; exact h
  | cons p rest ih =>
    intro fs k h ha
    obtain ⟨k0, v⟩ := p
    rw [lookupF] at ha
    by_cases hk : k0 = k
    · rw [if_pos hk] at ha
      exact Option.noConfusion ha
    · rw [if_neg hk] at ha
      have e : applyAdded fs ((k0, v) :: rest) = applyAdded (setField fs k0 v) rest := rfl
      rw [e]
      apply ih _ _ _ ha
      rw [lookupF_setField, if_neg (fun hc : k = k0 => hk hc.symm)]
      exact h

theorem lookupF_none_delField {β : Type} {l : List (String × β)} {k k0 : String}
    (h : lookupF l k = none) : lookupF (delField l k0) k = none := by
  rw [lookupF_eq_none_iff] at h ⊢
  intro hm
  obtain ⟨q, hq, hf⟩ := List.mem_map.mp hm
  exact h (List.mem_map.mpr ⟨q, delField_subset _ _ q hq, hf⟩)

theorem applyDeleted_preserves_none (del : List String) :
    ∀ fs k, lookupF fs k = none → lookupF (applyDeleted fs del) k = none := by
  induction del with
  | nil => intro fs k h; exact h
  | cons k0 rest ih =>
    intro fs k h
    have e : applyDeleted fs (k0 :: rest) = applyDeleted (delField fs k0) rest := rfl
    rw [e]
    exact ih _ _ (lookupF_none_delField h)

/-- C10: a key listed in `changed` but absent from the object is silently
skipped — the changed loop applies nothing and creates no key — and the
key is absent from the final `applyObjectDiff` result unless it is also in
`added`. -/
theorem C10_absent_changed_keys_skipped (fs : List (String × Value))
    (ch : List (String × Diff)) (ad : List (String × Value)) (del : List String)
    (k : String) (habs : lookupF fs k = none) :
    lookupF (applyChanged fs ch) k = none ∧
    (lookupF ad k = none → lookupF (applyObjectDiff fs ch ad del) k = none) := by
  refine ⟨applyChanged_preserves_none ch fs k habs, ?_⟩
  intro ha
  unfold applyObjectDiff
  exact applyDeleted_preserves_none del _ k
    (applyAdded_preserves_none ad _ k (applyChanged_preserves_none ch fs k habs) ha)

/-- C10 witness: a changed entry whose key `a` is absent from the object
`{b: 1}`, with empty added and deleted sets. -/
theorem C10_witness :
    lookupF (applyChanged [("b", .vNum 1)] [("a", .value (.vNum 0) (.vNum 9))]) "a" = none ∧
    (lookupF ([] : List (String × Value)) "a" = none →
      lookupF (applyObjectDiff [("b", .vNum 1)] [("a", .value (.vNum 0) (.vNum 9))] [] [])
        "a" = none) :=
  C10_absent_changed_keys_skipped [("b", .vNum 1)] [("a", .value (.vNum 0) (.vNum 9))]
    [] [] "a" rfl

/-! Lemmas about the array diff: characterizing `createArrayDiff`'s items
and the three phases of `applyArrayDiff`. -/

/-- The item list `createArrayDiff` builds. -/
def arrItemsOf (oldA newA : List Value) : List ArrItem :=
  (List.range (max oldA.length newA.length)).filterMap (arrayItemAt oldA newA)

theorem createArrayDiff_eq (a b : List Value) :
    createArrayDiff a b =
      if (arrItemsOf a b).isEmpty then none else some (.arr (arrItemsOf a b)) := rfl

theorem filterMap_eq_map_of {f : Nat → Option ArrItem} {g : Nat → ArrItem} :
    ∀ l : List Nat, (∀ i ∈ l, f i = some (g i)) → l.filterMap f = l.map g := by
  intro l
  induction l with
  | nil => intro _; rfl
  | cons i rest ih =>
    intro h
    rw [List.filterMap_cons, h i (by simp), List.map_cons,
      ih (fun j hj => h j (by simp [hj]))]

theorem filterMap_eq_filter_map_of {f : Nat → Option ArrItem} {p : Nat → Bool}
    {g : Nat → ArrItem} :
    ∀ l : List Nat, (∀ i ∈ l, f i = if p i then some (g i) else none) →
      l.filterMap f = (l.filter p).map g := by
  intro l
  induction l with
  | nil => intro _; rfl
  | cons i rest ih =>
    intro h
    rw [List.filterMap_cons, h i (by simp), List.filter_cons,
      ih (fun j hj => h j (by simp [hj]))]
    by_cases hp : p i
    · rw [if_pos hp, if_pos hp, List.map_cons]
    · rw [if_neg hp, if_neg (by simpa using hp)]

theorem noUndefL_mem {b : List Value} (h : noUndefL b = true) :
    ∀ x ∈ b, x ≠ Value.vUndef := by
  induction b with
  | nil => intro x hx; cases hx
  | cons y ys ih =>
    intro x hx
    rw [noUndefL, Bool.and_eq_true] at h
    rw [List.mem_cons] at hx
    rcases hx with hx | hx
    · subst hx
      intro he
      rw [he] at h
      exact Bool.noConfusion h.1
    · exact ih h.2 x hx

theorem foldl_set_spec (w : Nat → Value) :
    ∀ (l : List Nat) (r : List Value),
      (∀ i ∈ l, i < r.length ∧ w i ≠ Value.vUndef) →
      (((l.map (fun i => ({ index := i, value := w i } : ArrItem))).foldl
          applyArrayStep r).length = r.length) ∧
      (∀ j, ((l.map (fun i => ({ index := i, value := w i } : ArrItem))).foldl
          applyArrayStep r)[j]? = if j ∈ l then some (w j) else r[j]?) := by
  intro l
  induction l with
  | nil =>
    intro r _
    exact ⟨rfl, fun j => by simp⟩
  | cons i rest ih =>
    intro r h
    have hi := h i (by simp)
    have hstep : applyArrayStep r { index := i, value := w i } = r.set i (w i) := by
      simp [applyArrayStep, hi.2]
    simp only [List.map_cons, List.foldl_cons, hstep]
    have hr : ∀ j ∈ rest, j < (r.set i (w i)).length ∧ w j ≠ Value.vUndef := by
      intro j hj
      have := h j (by simp [hj])
      simpa using this
    obtain ⟨hlen, hget⟩ := ih (r.set i (w i)) hr
    refine ⟨by simpa using hlen, ?_⟩
    intro j
    rw [hget j]
    by_cases hjr : j ∈ rest
    · rw [if_pos hjr, if_pos (by simp [hjr])]
    · rw [if_neg hjr]
      by_cases hji : j = i
      · subst hji
        rw [if_pos (by simp), List.getElem?_set, if_pos rfl, if_pos hi.1]
      · rw [if_neg (by simp [hji, hjr]), List.getElem?_set,
          if_neg (fun hc => hji hc.symm)]

theorem foldl_insert_append (w : Nat → Value) :
    ∀ (k s : Nat) (r : List Value), r.length = s →
      (((List.range' s k).map
          (fun i => ({ index := i, value := w i, added := true } : ArrItem))).foldl
        applyArrayStep r) = r ++ (List.range' s k).map w := by
  intro k
  induction k with
  | zero => intro s r _; simp
  | succ k ih =>
    intro s r hr
    rw [List.range'_succ]
    simp only [List.map_cons, List.foldl_cons]
    have hstep : applyArrayStep r { index := s, value := w s, added := true } =
        r ++ [w s] := by
      simp only [applyArrayStep]
      rw [← hr, List.take_length, List.drop_length]
      simp
    rw [hstep, ih (s + 1) (r ++ [w s]) (by simp [hr]), List.append_assoc]
    simp

theorem foldl_skip_removed :
    ∀ (its : List ArrItem) (r : List Value),
      (∀ it ∈ its, it.added = false ∧ it.removed = true) →
      its.foldl applyArrayStep r = r := by
  intro its
  induction its with
  | nil => intro r _; rfl
  | cons it rest ih =>
    intro r h
    have hit := h it (by simp)
    have hstep : applyArrayStep r it = r := by
      simp [applyArrayStep, hit.1, hit.2]
    rw [List.foldl_cons, hstep]
    exact ih r (fun x hx => h x (by simp [hx]))

theorem insertDesc_append (it : ArrItem) :
    ∀ l, (∀ y ∈ l, ¬ y.index < it.index) → insertDescByIndex it l = l ++ [it] := by
  intro l
  induction l with
  | nil => intro _; rfl
  | cons x xs ih =>
    intro h
    rw [insertDescByIndex, if_neg (h x (by simp)), ih (fun y hy => h y (by simp [hy]))]
    rfl

theorem sortDesc_of_ascending :
    ∀ l, List.Pairwise (fun p q : ArrItem => p.index < q.index) l →
      sortDescByIndex l = l.reverse := by
  intro l
  induction l with
  | nil => intro _; rfl
  | cons x xs ih =>
    intro h
    have hx := (List.pairwise_cons.mp h).1
    have e : sortDescByIndex (x :: xs) = insertDescByIndex x (sortDescByIndex xs) := rfl
    rw [e, ih h.of_cons, insertDesc_append x _ (by
      intro y hy
      have := hx y (List.mem_reverse.mp hy)
      omega), List.reverse_cons]

theorem foldl_erase_take (mkIt : Nat → ArrItem) (hidx : ∀ i, (mkIt i).index = i) :
    ∀ (k s : Nat) (r : List Value), r.length = s + k →
      (((List.range' s k).map mkIt).reverse.foldl
        (fun res it => res.eraseIdx it.index) r) = r.take s := by
  intro k
  induction k with
  | zero =>
    intro s r hr
    simp only [List.range'_zero, List.map_nil, List.reverse_nil, List.foldl_nil]
    have hs : s = r.length := by omega
    rw [hs, List.take_length]
  | succ k ih =>
    intro s r hr
    rw [List.range'_concat]
    simp only [List.map_append, List.map_cons, List.map_nil, List.reverse_append,
      List.reverse_cons, List.reverse_nil, List.nil_append, List.singleton_append,
      List.foldl_cons]
    have he : r.eraseIdx (mkIt (s + 1 * k)).index = r.take (s + k) := by
      rw [hidx, List.eraseIdx_eq_take_drop_succ]
      have hd : r.drop (s + 1 * k + 1) = [] := by
        apply List.drop_eq_nil_of_le
        omega
      rw [hd, List.append_nil]
      congr 1
      omega
    rw [he, ih s (r.take (s + k)) (by simp [List.length_take]; omega),
      List.take_take]
    congr 1
    omega

theorem map_getD_range' (b : List Value) :
    ∀ (n s : Nat), s + n = b.length →
      (List.range' s n).map (fun i => b.getD i Value.vUndef) = b.drop s := by
  intro n
  induction n with
  | zero =>
    intro s hs
    rw [List.range'_zero, List.map_nil]
    symm
    apply List.drop_eq_nil_of_le
    omega
  | succ n ih =>
    intro s hs
    rw [List.range'_succ, List.map_cons]
    have hsl : s < b.length := by omega
    rw [List.drop_eq_getElem_cons hsl]
    congr 1
    · rw [List.getD_eq_getElem?_getD, List.getElem?_eq_getElem hsl]
      rfl
    · exact ih (s + 1) (by omega)

theorem applyArrayDiff_eq (arr : List Value) (items : List ArrItem) :
    applyArrayDiff arr items =
      items.foldl applyArrayStep
        ((sortDescByIndex (items.filter (fun it => it.removed))).foldl
          (fun res it => res.eraseIdx it.index) arr) := rfl

theorem getD_eq_getElem {l : List Value} {i : Nat} (h : i < l.length) :
    l.getD i Value.vUndef = l[i] := by
  rw [List.getD_eq_getElem?_getD, List.getElem?_eq_getElem h]
  rfl

theorem arrayItemAt_lt {a b : List Value} {i : Nat} (ha : i < a.length)
    (hb : i < b.length) :
    arrayItemAt a b i =
      if decide (a.getD i .vUndef ≠ b.getD i .vUndef) = true
      then some { index := i, value := b.getD i .vUndef } else none := by
  unfold arrayItemAt
  rw [if_neg (by omega), if_neg (by omega)]
  by_cases h : a.getD i Value.vUndef ≠ b.getD i Value.vUndef
  · rw [if_pos h, if_pos (by simpa using h)]
  · rw [if_neg h, if_neg (by simpa using h)]

theorem arrayItemAt_add {a b : List Value} {i : Nat} (ha : a.length ≤ i) :
    arrayItemAt a b i =
      some { index := i, value := b.getD i .vUndef, added := true } := by
  unfold arrayItemAt
  rw [if_pos ha]

theorem arrayItemAt_rem {a b : List Value} {i : Nat} (ha : i < a.length)
    (hb : b.length ≤ i) :
    arrayItemAt a b i =
      some { index := i, value := a.getD i .vUndef, removed := true } := by
  unfold arrayItemAt
  rw [if_neg (by omega), if_pos hb]

theorem arrItemsOf_le {a b : List Value} (hab : a.length ≤ b.length) :
    arrItemsOf a b =
      ((List.range' 0 a.length).filter
          (fun i => decide (a.getD i .vUndef ≠ b.getD i .vUndef))).map
        (fun i => ({ index := i, value := b.getD i .vUndef } : ArrItem)) ++
      (List.range' a.length (b.length - a.length)).map
        (fun i => ({ index := i, value := b.getD i .vUndef, added := true } : ArrItem)) := by
  unfold arrItemsOf
  rw [List.range_eq_range', max_eq_right hab]
  have h1 := List.range'_append 0 a.length (b.length - a.length) 1
  simp only [Nat.zero_add, Nat.one_mul] at h1
  have h2 : (b.length - a.length) + a.length = b.length := by omega
  rw [h2] at h1
  rw [← h1, List.filterMap_append]
  congr 1
  · apply filterMap_eq_filter_map_of
    intro i hi
    rw [List.mem_range'_1] at hi
    exact @arrayItemAt_lt a b i (by omega) (by omega)
  · apply filterMap_eq_map_of
    intro i hi
    rw [List.mem_range'_1] at hi
    exact @arrayItemAt_add a b i (by omega)

theorem arrItemsOf_gt {a b : List Value} (hab : b.length < a.length) :
    arrItemsOf a b =
      ((List.range' 0 b.length).filter
          (fun i => decide (a.getD i .vUndef ≠ b.getD i .vUndef))).map
        (fun i => ({ index := i, value := b.getD i .vUndef } : ArrItem)) ++
      (List.range' b.length (a.length - b.length)).map
        (fun i => ({ index := i, value := a.getD i .vUndef, removed := true } : ArrItem)) := by
  unfold arrItemsOf
  rw [List.range_eq_range', max_eq_left (by omega)]
  have h1 := List.range'_append 0 b.length (a.length - b.length) 1
  simp only [Nat.zero_add, Nat.one_mul] at h1
  have h2 : (a.length - b.length) + b.length = a.length := by omega
  rw [h2] at h1
  rw [← h1, List.filterMap_append]
  congr 1
  · apply filterMap_eq_filter_map_of
    intro i hi
    rw [List.mem_range'_1] at hi
    exact @arrayItemAt_lt a b i (by omega) (by omega)
  · apply filterMap_eq_map_of
    intro i hi
    rw [List.mem_range'_1] at hi
    exact @arrayItemAt_rem a b i (by omega) (by omega)

theorem prefix_eq_of_filter_nil {a b : List Value} {n : Nat}
    (h : (List.range' 0 n).filter
        (fun i => decide (a.getD i Value.vUndef ≠ b.getD i Value.vUndef)) = []) :
    ∀ i, i < n → a.getD i Value.vUndef = b.getD i Value.vUndef := by
  intro i hi
  have h2 := List.filter_eq_nil_iff.mp h i (List.mem_range'_1.mpr ⟨by omega, by omega⟩)
  simpa using h2

/-- The forward array round-trip: applying the created array delta to the
old array reconstructs the new one, provided the new one contains no
`undefined` element (an `undefined` replacement value would be skipped by
`applyArrayDiff`'s `item.value !== undefined` guard). -/
theorem applyArrayDiff_create {a b : List Value} (hnb : noUndefL b = true) :
    applyArrayDiff a (arrItemsOf a b) = b := by
  have hbval : ∀ i, i < b.length → b.getD i Value.vUndef ≠ Value.vUndef := by
    intro i hi
    rw [getD_eq_getElem hi]
    exact noUndefL_mem hnb _ (List.getElem_mem hi)
  by_cases hab : a.length ≤ b.length
  · rw [arrItemsOf_le hab, applyArrayDiff_eq]
    have hrem : (((List.range' 0 a.length).filter
          (fun i => decide (a.getD i .vUndef ≠ b.getD i .vUndef))).map
        (fun i => ({ index := i, value := b.getD i .vUndef } : ArrItem)) ++
        (List.range' a.length (b.length - a.length)).map
          (fun i => ({ index := i, value := b.getD i .vUndef, added := true } : ArrItem))).filter
        (fun it => it.removed) = [] := by
      rw [List.filter_eq_nil_iff]
      intro it hit
      rw [List.mem_append] at hit
      rcases hit with h | h <;> obtain ⟨i, hi, rfl⟩ := List.mem_map.mp h <;> simp
    rw [hrem]
    simp only [sortDescByIndex, List.foldr_nil, List.foldl_nil, List.foldl_append]
    obtain ⟨hlen, hget⟩ := foldl_set_spec (fun i => b.getD i Value.vUndef)
      ((List.range' 0 a.length).filter
        (fun i => decide (a.getD i .vUndef ≠ b.getD i .vUndef))) a
      (by
        intro i hi
        rw [List.mem_filter, List.mem_range'_1] at hi
        exact ⟨by omega, hbval i (by omega)⟩)
    set r1 := List.foldl applyArrayStep a
      (((List.range' 0 a.length).filter
          (fun i => decide (a.getD i .vUndef ≠ b.getD i .vUndef))).map
        (fun i => ({ index := i, value := b.getD i .vUndef } : ArrItem))) with hr1
    have htake : r1 = b.take a.length := by
      apply List.ext_getElem?
      intro j
      rw [hget j, List.getElem?_take]
      by_cases hj : j ∈ (List.range' 0 a.length).filter
          (fun i => decide (a.getD i .vUndef ≠ b.getD i .vUndef))
      · have hjlt : j < a.length := by
          rw [List.mem_filter, List.mem_range'_1] at hj
          omega
        rw [if_pos hj, if_pos hjlt,
          List.getElem?_eq_getElem (show j < b.length by omega),
          getD_eq_getElem (show j < b.length by omega)]
      · rw [if_neg hj]
        by_cases hjlt : j < a.length
        · rw [if_pos hjlt]
          have heq : a.getD j Value.vUndef = b.getD j Value.vUndef := by
            by_contra hne
            exact hj (List.mem_filter.mpr
              ⟨List.mem_range'_1.mpr ⟨by omega, by omega⟩, by simpa using hne⟩)
          rw [getD_eq_getElem hjlt, getD_eq_getElem (show j < b.length by omega)] at heq
          rw [List.getElem?_eq_getElem hjlt,
            List.getElem?_eq_getElem (show j < b.length by omega), heq]
        · rw [if_neg hjlt, List.getElem?_eq_none (show a.length ≤ j by omega)]
    rw [htake,
      foldl_insert_append (fun i => b.getD i Value.vUndef) (b.length - a.length)
        a.length (b.take a.length) (by rw [List.length_take]; omega),
      map_getD_range' b (b.length - a.length) a.length (by omega)]
    exact List.take_append_drop _ b
  · have hba : b.length < a.length := by omega
    rw [arrItemsOf_gt hba, applyArrayDiff_eq]
    have hchnil : (((List.range' 0 b.length).filter
          (fun i => decide (a.getD i .vUndef ≠ b.getD i .vUndef))).map
        (fun i => ({ index := i, value := b.getD i .vUndef } : ArrItem))).filter
        (fun it => it.removed) = [] := by
      rw [List.filter_eq_nil_iff]
      intro it hit
      obtain ⟨i, hi, rfl⟩ := List.mem_map.mp hit
      simp
    have hremself : (((List.range' b.length (a.length - b.length)).map
        (fun i => ({ index := i, value := a.getD i .vUndef, removed := true } : ArrItem))).filter
        (fun it => it.removed)) =
        (List.range' b.length (a.length - b.length)).map
          (fun i => ({ index := i, value := a.getD i .vUndef, removed := true } : ArrItem)) := by
      rw [List.filter_eq_self]
      intro it hit
      obtain ⟨i, hi, rfl⟩ := List.mem_map.mp hit
      simp
    rw [List.filter_append, hchnil, hremself, List.nil_append]
    rw [sortDesc_of_ascending _ (by
      rw [List.pairwise_map]
      exact List.pairwise_lt_range' _ _)]
    rw [foldl_erase_take _ (fun i => rfl) (a.length - b.length) b.length a (by omega)]
    rw [List.foldl_append]
    obtain ⟨hlen, hget⟩ := foldl_set_spec (fun i => b.getD i Value.vUndef)
      ((List.range' 0 b.length).filter
        (fun i => decide (a.getD i .vUndef ≠ b.getD i .vUndef))) (a.take b.length)
      (by
        intro i hi
        rw [List.mem_filter, List.mem_range'_1] at hi
        refine ⟨by rw [List.length_take]; omega, hbval i (by omega)⟩)
    set r1 := List.foldl applyArrayStep (a.take b.length)
      (((List.range' 0 b.length).filter
          (fun i => decide (a.getD i .vUndef ≠ b.getD i .vUndef))).map
        (fun i => ({ index := i, value := b.getD i .vUndef } : ArrItem))) with hr1
    have hr1b : r1 = b := by
      apply List.ext_getElem?
      intro j
      rw [hget j]
      by_cases hj : j ∈ (List.range' 0 b.length).filter
          (fun i => decide (a.getD i .vUndef ≠ b.getD i .vUndef))
      · have hjlt : j < b.length := by
          rw [List.mem_filter, List.mem_range'_1] at hj
          omega
        rw [if_pos hj, List.getElem?_eq_getElem hjlt, getD_eq_getElem hjlt]
      · rw [if_neg hj, List.getElem?_take]
        by_cases hjlt : j < b.length
        · rw [if_pos hjlt]
          have heq : a.getD j Value.vUndef = b.getD j Value.vUndef := by
            by_contra hne
            exact hj (List.mem_filter.mpr
              ⟨List.mem_range'_1.mpr ⟨by omega, by omega⟩, by simpa using hne⟩)
          rw [getD_eq_getElem (show j < a.length by omega), getD_eq_getElem hjlt] at heq
          rw [List.getElem?_eq_getElem (show j < a.length by omega),
            List.getElem?_eq_getElem hjlt, heq]
        · rw [if_neg hjlt, List.getElem?_eq_none (show b.length ≤ j by omega)]
    rw [hr1b]
    apply foldl_skip_removed
    intro it hit
    obtain ⟨i, hi, rfl⟩ := List.mem_map.mp hit
    simp

/-- The reverse array round-trip, for deltas whose items are all pure
additions or removals (no plain replacements, whose reversal keeps the new
value): applying the flag-swapped delta to the new array restores the old
one. -/
theorem applyArrayDiff_reverse {a b : List Value}
    (hne : arrItemsOf a b ≠ [])
    (hrev : (arrItemsOf a b).all (fun it => it.added || it.removed) = true) :
    applyArrayDiff b ((arrItemsOf a b).map (fun it =>
      ({ index := it.index, value := it.value, added := it.removed,
         removed := it.added } : ArrItem))) = a := by
  by_cases hab : a.length ≤ b.length
  · rw [arrItemsOf_le hab] at hne hrev ⊢
    have hchnil : ((List.range' 0 a.length).filter
        (fun i => decide (a.getD i .vUndef ≠ b.getD i .vUndef))) = [] := by
      by_contra hc
      obtain ⟨i, hi⟩ := List.exists_mem_of_ne_nil _ hc
      have hmem : ({ index := i, value := b.getD i .vUndef } : ArrItem) ∈
          ((List.range' 0 a.length).filter
            (fun i => decide (a.getD i .vUndef ≠ b.getD i .vUndef))).map
          (fun i => ({ index := i, value := b.getD i .vUndef } : ArrItem)) :=
        List.mem_map.mpr ⟨i, hi, rfl⟩
      have := List.all_eq_true.mp hrev _ (List.mem_append.mpr (Or.inl hmem))
      simp at this
    rw [hchnil] at hne hrev ⊢
    simp only [List.map_nil, List.nil_append] at hne hrev ⊢
    have hlt : a.length < b.length := by
      rcases Nat.lt_or_ge a.length b.length with h | h
      · exact h
      · exfalso
        have hz : b.length - a.length = 0 := by omega
        rw [hz] at hne
        simp at hne
    have hpre : ∀ i, i < a.length → a.getD i Value.vUndef = b.getD i Value.vUndef :=
      prefix_eq_of_filter_nil hchnil
    rw [List.map_map]
    show applyArrayDiff b ((List.range' a.length (b.length - a.length)).map
      (fun i => ({ index := i, value := b.getD i .vUndef, removed := true } : ArrItem))) = a
    rw [applyArrayDiff_eq]
    have hfil : ((List.range' a.length (b.length - a.length)).map
        (fun i => ({ index := i, value := b.getD i .vUndef, removed := true } : ArrItem))).filter
        (fun it => it.removed) =
        (List.range' a.length (b.length - a.length)).map
          (fun i => ({ index := i, value := b.getD i .vUndef, removed := true } : ArrItem)) := by
      rw [List.filter_eq_self]
      intro it hit
      obtain ⟨i, hi, rfl⟩ := List.mem_map.mp hit
      simp
    rw [hfil, sortDesc_of_ascending _ (by
      rw [List.pairwise_map]
      exact List.pairwise_lt_range' _ _)]
    rw [foldl_erase_take _ (fun i => rfl) (b.length - a.length) a.length b (by omega)]
    have hbt : b.take a.length = a := by
      apply List.ext_getElem?
      intro j
      rw [List.getElem?_take]
      by_cases hj : j < a.length
      · rw [if_pos hj]
        have := hpre j hj
        rw [getD_eq_getElem hj, getD_eq_getElem (show j < b.length by omega)] at this
        rw [List.getElem?_eq_getElem hj,
          List.getElem?_eq_getElem (show j < b.length by omega), this]
      · rw [if_neg hj, List.getElem?_eq_none (show a.length ≤ j by omega)]
    rw [hbt]
    apply foldl_skip_removed
    intro it hit
    obtain ⟨i, hi, rfl⟩ := List.mem_map.mp hit
    simp
  · have hba : b.length < a.length := by omega
    rw [arrItemsOf_gt hba] at hne hrev ⊢
    have hchnil : ((List.range' 0 b.length).filter
        (fun i => decide (a.getD i .vUndef ≠ b.getD i .vUndef))) = [] := by
      by_contra hc
      obtain ⟨i, hi⟩ := List.exists_mem_of_ne_nil _ hc
      have hmem : ({ index := i, value := b.getD i .vUndef } : ArrItem) ∈
          ((List.range' 0 b.length).filter
            (fun i => decide (a.getD i .vUndef ≠ b.getD i .vUndef))).map
          (fun i => ({ index := i, value := b.getD i .vUndef } : ArrItem)) :=
        List.mem_map.mpr ⟨i, hi, rfl⟩
      have := List.all_eq_true.mp hrev _ (List.mem_append.mpr (Or.inl hmem))
      simp at this
    rw [hchnil] at hne hrev ⊢
    simp only [List.map_nil, List.nil_append] at hne hrev ⊢
    have hpre : ∀ i, i < b.length → a.getD i Value.vUndef = b.getD i Value.vUndef :=
      prefix_eq_of_filter_nil hchnil
    rw [List.map_map]
    show applyArrayDiff b ((List.range' b.length (a.length - b.length)).map
      (fun i => ({ index := i, value := a.getD i .vUndef, added := true } : ArrItem))) = a
    rw [applyArrayDiff_eq]
    have hfil : ((List.range' b.length (a.length - b.length)).map
        (fun i => ({ index := i, value := a.getD i .vUndef, added := true } : ArrItem))).filter
        (fun it => it.removed) = [] := by
      rw [List.filter_eq_nil_iff]
      intro it hit
      obtain ⟨i, hi, rfl⟩ := List.mem_map.mp hit
      simp
    rw [hfil]
    simp only [sortDescByIndex, List.foldr_nil, List.foldl_nil]
    rw [foldl_insert_append (fun i => a.getD i Value.vUndef) (a.length - b.length)
      b.length b rfl]
    rw [map_getD_range' a (a.length - b.length) b.length (by omega)]
    have hbt : b = a.take b.length := by
      apply List.ext_getElem?
      intro j
      rw [List.getElem?_take]
      by_cases hj : j < b.length
      · rw [if_pos hj]
        have := hpre j hj
        rw [getD_eq_getElem (show j < a.length by omega), getD_eq_getElem hj] at this
        rw [List.getElem?_eq_getElem hj,
          List.getElem?_eq_getElem (show j < a.length by omega), this]
      · rw [if_neg hj, List.getElem?_eq_none (show b.length ≤ j by omega)]
    calc b ++ a.drop b.length
        = List.take b.length a ++ a.drop b.length :=
          congrArg (fun x => x ++ a.drop b.length) hbt
      _ = a := List.take_append_drop _ a

/-! Lemmas about the object diff: lookup characterizations of the three
`applyObjectDiff` phases and of the components `createDiff` builds. -/

theorem keysSorted_nodup {β : Type} {l : List (String × β)} (h : keysSorted l = true) :
    (l.map Prod.fst).Nodup := by
  induction l with
  | nil => simp
  | cons p t ih =>
    obtain ⟨k, v⟩ := p
    rw [List.map_cons, List.nodup_cons]
    refine ⟨?_, ih (keysSorted_tail h)⟩
    intro hk
    obtain ⟨q, hq, hfst⟩ := List.mem_map.mp hk
    have h2 := keysSorted_head_lt h hq
    rw [hfst, keyLt_irrefl] at h2
    exact Bool.noConfusion h2

theorem lookupF_isSome_of_mem {β : Type} :
    ∀ {l : List (String × β)} {k : String} {v : β},
      (k, v) ∈ l → (lookupF l k).isSome = true := by
  intro l
  induction l with
  | nil => intro k v h; cases h
  | cons p t ih =>
    intro k v h
    obtain ⟨k0, v0⟩ := p
    rw [List.mem_cons] at h
    by_cases he : k0 = k
    · rw [lookupF, if_pos he]; rfl
    · rw [lookupF, if_neg he]
      rcases h with h | h
      · injection h with h1 h2; exact absurd h1.symm he
      · exact ih h

theorem lookupF_applyChanged :
    ∀ (ch : List (String × Diff)) (fs : List (String × Value)),
      (ch.map Prod.fst).Nodup →
      (∀ p ∈ ch, (lookupF fs p.1).isSome = true) →
      ∀ k, (lookupF ch k = none → lookupF (applyChanged fs ch) k = lookupF fs k) ∧
        (∀ cd, lookupF ch k = some cd →
          lookupF (applyChanged fs ch) k =
            (lookupF fs k).map (fun v => applyDiff v cd)) := by
  intro ch
  induction ch with
  | nil =>
    intro fs _ _ k
    refine ⟨fun _ => rfl, fun cd hcd => ?_⟩
    rw [lookupF] at hcd
    exact Option.noConfusion hcd
  | cons p rest ih =>
    intro fs hnd hsome k
    obtain ⟨k0, cd0⟩ := p
    have h0 := hsome (k0, cd0) (by simp)
    obtain ⟨v0, hv0⟩ := Option.isSome_iff_exists.mp h0
    have e : applyChanged fs ((k0, cd0) :: rest) =
        applyChanged (setField fs k0 (applyDiff v0 cd0)) rest := by
      simp [applyChanged, hv0]
    have hnd' : (rest.map Prod.fst).Nodup := by
      rw [List.map_cons, List.nodup_cons] at hnd
      exact hnd.2
    have hk0rest : k0 ∉ rest.map Prod.fst := by
      rw [List.map_cons, List.nodup_cons] at hnd
      exact hnd.1
    have hsome' : ∀ p ∈ rest,
        (lookupF (setField fs k0 (applyDiff v0 cd0)) p.1).isSome = true := by
      intro p hp
      rw [lookupF_setField]
      by_cases hc : p.1 = k0
      · rw [if_pos hc]
        rfl
      · rw [if_neg hc]
        exact hsome p (by simp [hp])
    have ihk := ih (setField fs k0 (applyDiff v0 cd0)) hnd' hsome' k
    constructor
    · intro hnone
      have hkk : ¬ k0 = k := by
        intro hc
        rw [lookupF, if_pos hc] at hnone
        exact Option.noConfusion hnone
      rw [lookupF, if_neg hkk] at hnone
      rw [e, ihk.1 hnone, lookupF_setField, if_neg (fun hc => hkk hc.symm)]
    · intro cd hcd
      by_cases hkk : k0 = k
      · subst hkk
        rw [lookupF, if_pos rfl] at hcd
        injection hcd with hcd
        subst hcd
        have hrest : lookupF rest k0 = none := by
          rw [lookupF_eq_none_iff]
          exact hk0rest
        rw [e, ihk.1 hrest, lookupF_setField, if_pos rfl, hv0]
        rfl
      · rw [lookupF, if_neg hkk] at hcd
        rw [e, ihk.2 cd hcd, lookupF_setField, if_neg (fun hc => hkk hc.symm)]

theorem keysSorted_applyChanged :
    ∀ (ch : List (String × Diff)) (fs : List (String × Value)),
      keysSorted fs = true → keysSorted (applyChanged fs ch) = true := by
  intro ch
  induction ch with
  | nil => intro fs h; exact h
  | cons p rest ih =>
    intro fs h
    obtain ⟨k0, cd⟩ := p
    cases hl : lookupF fs k0 with
    | none =>
      have e : applyChanged fs ((k0, cd) :: rest) = applyChanged fs rest := by
        simp [applyChanged, hl]
      rw [e]
      exact ih fs h
    | some v =>
      have e : applyChanged fs ((k0, cd) :: rest) =
          applyChanged (setField fs k0 (applyDiff v cd)) rest := by
        simp [applyChanged, hl]
      rw [e]
      exact ih _ (keysSorted_setField _ _ _ h)

theorem lookupF_applyAdded :
    ∀ (ad fs : List (String × Value)), (ad.map Prod.fst).Nodup →
      ∀ k, (lookupF ad k = none → lookupF (applyAdded fs ad) k = lookupF fs k) ∧
        (∀ v, lookupF ad k = some v → lookupF (applyAdded fs ad) k = some v) := by
  intro ad
  induction ad with
  | nil =>
    intro fs _ k
    refine ⟨fun _ => rfl, fun v hv => ?_⟩
    rw [lookupF] at hv
    exact Option.noConfusion hv
  | cons p rest ih =>
    intro fs hnd k
    obtain ⟨k0, v0⟩ := p
    have e : applyAdded fs ((k0, v0) :: rest) = applyAdded (setField fs k0 v0) rest := rfl
    have hnd' : (rest.map Prod.fst).Nodup := by
      rw [List.map_cons, List.nodup_cons] at hnd
      exact hnd.2
    have hk0 : k0 ∉ rest.map Prod.fst := by
      rw [List.map_cons, List.nodup_cons] at hnd
      exact hnd.1
    have ihk := ih (setField fs k0 v0) hnd' k
    constructor
    · intro hnone
      have hkk : ¬ k0 = k := by
        intro hc
        rw [lookupF, if_pos hc] at hnone
        exact Option.noConfusion hnone
      rw [lookupF, if_neg hkk] at hnone
      rw [e, ihk.1 hnone, lookupF_setField, if_neg (fun hc => hkk hc.symm)]
    · intro v hv
      by_cases hkk : k0 = k
      · subst hkk
        rw [lookupF, if_pos rfl] at hv
        injection hv with hv
        subst hv
        have hrest : lookupF rest k0 = none := by
          rw [lookupF_eq_none_iff]
          exact hk0
        rw [e, ihk.1 hrest, lookupF_setField, if_pos rfl]
      · rw [lookupF, if_neg hkk] at hv
        rw [e, ihk.2 v hv]

theorem keysSorted_applyAdded :
    ∀ (ad fs : List (String × Value)),
      keysSorted fs = true → keysSorted (applyAdded fs ad) = true := by
  intro ad
  induction ad with
  | nil => intro fs h; exact h
  | cons p rest ih =>
    intro fs h
    have e : applyAdded fs (p :: rest) = applyAdded (setField fs p.1 p.2) rest := rfl
    rw [e]
    exact ih _ (keysSorted_setField _ _ _ h)

theorem lookupF_applyDeleted :
    ∀ (del : List String) (fs : List (String × Value)), keysSorted fs = true →
      ∀ k, lookupF (applyDeleted fs del) k =
        if k ∈ del then none else lookupF fs k := by
  intro del
  induction del with
  | nil => intro fs _ k; simp [applyDeleted]
  | cons k0 rest ih =>
    intro fs hs k
    have e : applyDeleted fs (k0 :: rest) = applyDeleted (delField fs k0) rest := rfl
    rw [e, ih _ (keysSorted_delField _ k0 hs) k, lookupF_delField _ k0 hs k]
    by_cases h1 : k ∈ rest
    · rw [if_pos h1, if_pos (by simp [h1])]
    · rw [if_neg h1]
      by_cases h2 : k = k0
      · rw [if_pos h2, if_pos (by simp [h2])]
      · rw [if_neg h2, if_neg (by simp [h2, h1])]

theorem keysSorted_applyDeleted :
    ∀ (del : List String) (fs : List (String × Value)),
      keysSorted fs = true → keysSorted (applyDeleted fs del) = true := by
  intro del
  induction del with
  | nil => intro fs h; exact h
  | cons k0 rest ih =>
    intro fs h
    have e : applyDeleted fs (k0 :: rest) = applyDeleted (delField fs k0) rest := rfl
    rw [e]
    exact ih _ (keysSorted_delField _ k0 h)

theorem objChanged_keys_sublist :
    ∀ (f1 f2 : List (String × Value)),
      ((objChanged f1 f2).map Prod.fst).Sublist (f1.map Prod.fst) := by
  intro f1
  induction f1 with
  | nil => intro f2; simp [objChanged]
  | cons p rest ih =>
    intro f2
    obtain ⟨k, v⟩ := p
    cases hl : lookupF f2 k with
    | none =>
      have e : objChanged ((k, v) :: rest) f2 = objChanged rest f2 := by
        simp [objChanged, hl]
      rw [e, List.map_cons]
      exact (ih f2).cons _
    | some w =>
      by_cases hvw : v = w
      · have e : objChanged ((k, v) :: rest) f2 = objChanged rest f2 := by
          simp [objChanged, hl, hvw]
        rw [e, List.map_cons]
        exact (ih f2).cons _
      · cases hcd : createDiff v w with
        | none =>
          have e : objChanged ((k, v) :: rest) f2 = objChanged rest f2 := by
            simp [objChanged, hl, hvw, hcd]
          rw [e, List.map_cons]
          exact (ih f2).cons _
        | some d =>
          have e : objChanged ((k, v) :: rest) f2 = (k, d) :: objChanged rest f2 := by
            simp [objChanged, hl, hvw, hcd]
          rw [e, List.map_cons, List.map_cons]
          exact (ih f2).cons₂ _

theorem objChanged_lookup_none {f1 f2 : List (String × Value)} {k : String}
    (h : lookupF f1 k = none) : lookupF (objChanged f1 f2) k = none := by
  rw [lookupF_eq_none_iff] at h ⊢
  intro hm
  exact h ((objChanged_keys_sublist f1 f2).subset hm)

theorem lookupF_objChanged :
    ∀ (f1 f2 : List (String × Value)), keysSorted f1 = true →
      ∀ k,
        (lookupF f2 k = none → lookupF (objChanged f1 f2) k = none) ∧
        (∀ v w, lookupF f1 k = some v → lookupF f2 k = some w →
          lookupF (objChanged f1 f2) k = if v = w then none else createDiff v w) := by
  intro f1
  induction f1 with
  | nil =>
    intro f2 _ k
    refine ⟨fun _ => rfl, fun v w hv _ => ?_⟩
    rw [lookupF] at hv
    exact Option.noConfusion hv
  | cons p rest ih =>
    intro f2 hs k
    obtain ⟨k0, v0⟩ := p
    have hrest := ih f2 (keysSorted_tail hs)
    by_cases hkk : k = k0
    · subst hkk
      have hlrest : lookupF rest k = none := lookupF_none_of_head_sorted hs
      have hchrest : lookupF (objChanged rest f2) k = none :=
        objChanged_lookup_none hlrest
      constructor
      · intro h2
        cases hl : lookupF f2 k with
        | none =>
          have e : objChanged ((k, v0) :: rest) f2 = objChanged rest f2 := by
            simp [objChanged, hl]
          rw [e]
          exact hchrest
        | some w => rw [hl] at h2; exact Option.noConfusion h2
      · intro v w hv hw
        rw [lookupF, if_pos rfl] at hv
        injection hv with hv
        subst hv
        by_cases hvw : v0 = w
        · have e : objChanged ((k, v0) :: rest) f2 = objChanged rest f2 := by
            simp [objChanged, hw, hvw]
          rw [e, if_pos hvw]
          exact hchrest
        · cases hcd : createDiff v0 w with
          | none =>
            have e : objChanged ((k, v0) :: rest) f2 = objChanged rest f2 := by
              simp [objChanged, hw, hvw, hcd]
            rw [e, if_neg hvw]
            exact hchrest
          | some d =>
            have e : objChanged ((k, v0) :: rest) f2 = (k, d) :: objChanged rest f2 := by
              simp [objChanged, hw, hvw, hcd]
            rw [e, if_neg hvw, lookupF, if_pos rfl]
    · have hskip : ∀ l2, lookupF ((k0, v0) :: l2 :
          List (String × Value)) k = lookupF l2 k := by
        intro l2
        rw [lookupF, if_neg (fun hc => hkk hc.symm)]
      have hmain : ∀ rhs, lookupF (objChanged rest f2) k = rhs →
          lookupF (objChanged ((k0, v0) :: rest) f2) k = rhs := by
        intro rhs hr
        cases hl : lookupF f2 k0 with
        | none =>
          have e : objChanged ((k0, v0) :: rest) f2 = objChanged rest f2 := by
            simp [objChanged, hl]
          rw [e]
          exact hr
        | some w0 =>
          by_cases hvw : v0 = w0
          · have e : objChanged ((k0, v0) :: rest) f2 = objChanged rest f2 := by
              simp [objChanged, hl, hvw]
            rw [e]
            exact hr
          · cases hcd : createDiff v0 w0 with
            | none =>
              have e : objChanged ((k0, v0) :: rest) f2 = objChanged rest f2 := by
                simp [objChanged, hl, hvw, hcd]
              rw [e]
              exact hr
            | some d =>
              have e : objChanged ((k0, v0) :: rest) f2 =
                  (k0, d) :: objChanged rest f2 := by
                simp [objChanged, hl, hvw, hcd]
              rw [e, lookupF, if_neg (fun hc => hkk hc.symm)]
              exact hr
      constructor
      · intro h2
        exact hmain none ((hrest k).1 h2)
      · intro v w hv hw
        rw [hskip rest] at hv
        exact hmain _ ((hrest k).2 v w hv hw)

theorem lookupF_addedOf :
    ∀ (f2 f1 : List (String × Value)) (k : String),
      (lookupF f1 k = none → lookupF (addedOf f1 f2) k = lookupF f2 k) ∧
      ((lookupF f1 k).isSome = true → lookupF (addedOf f1 f2) k = none) := by
  intro f2
  induction f2 with
  | nil => intro f1 k; exact ⟨fun _ => rfl, fun _ => rfl⟩
  | cons p rest ih =>
    intro f1 k
    obtain ⟨k0, w0⟩ := p
    have ihk := ih f1 k
    constructor
    · intro h1
      cases hl : (lookupF f1 k0).isNone with
      | true =>
        have e : addedOf f1 ((k0, w0) :: rest) = (k0, w0) :: addedOf f1 rest := by
          simp [addedOf, List.filter_cons, hl]
        rw [e, lookupF, lookupF]
        by_cases hkk : k0 = k
        · rw [if_pos hkk, if_pos hkk]
        · rw [if_neg hkk, if_neg hkk]
          exact ihk.1 h1
      | false =>
        have e : addedOf f1 ((k0, w0) :: rest) = addedOf f1 rest := by
          simp [addedOf, List.filter_cons, hl]
        rw [e, lookupF]
        by_cases hkk : k0 = k
        · subst hkk
          rw [h1] at hl
          exact Bool.noConfusion hl
        · rw [if_neg hkk]
          exact ihk.1 h1
    · intro h1
      cases hl : (lookupF f1 k0).isNone with
      | true =>
        have e : addedOf f1 ((k0, w0) :: rest) = (k0, w0) :: addedOf f1 rest := by
          simp [addedOf, List.filter_cons, hl]
        rw [e, lookupF]
        by_cases hkk : k0 = k
        · subst hkk
          rw [Option.isNone_iff_eq_none] at hl
          rw [hl] at h1
          exact Bool.noConfusion h1
        · rw [if_neg hkk]
          exact ihk.2 h1
      | false =>
        have e : addedOf f1 ((k0, w0) :: rest) = addedOf f1 rest := by
          simp [addedOf, List.filter_cons, hl]
        rw [e]
        exact ihk.2 h1

theorem addedOf_keys_nodup {f1 f2 : List (String × Value)}
    (h : keysSorted f2 = true) : ((addedOf f1 f2).map Prod.fst).Nodup := by
  have hsub : ((addedOf f1 f2).map Prod.fst).Sublist (f2.map Prod.fst) :=
    (List.filter_sublist f2).map Prod.fst
  exact (keysSorted_nodup h).sublist hsub

theorem mem_deletedOf_iff {f1 f2 : List (String × Value)} {k : String} :
    k ∈ deletedOf f1 f2 ↔ ∃ v, (k, v) ∈ f1 ∧ lookupF f2 k = none := by
  unfold deletedOf
  rw [List.mem_map]
  constructor
  · rintro ⟨q, hq, rfl⟩
    rw [List.mem_filter] at hq
    refine ⟨q.2, ?_, ?_⟩
    · have : (q.1, q.2) = q := rfl
      rw [this]
      exact hq.1
    · have := hq.2
      rwa [Option.isNone_iff_eq_none] at this
  · rintro ⟨v, hv, hnone⟩
    exact ⟨(k, v), List.mem_filter.mpr ⟨hv, by simp [hnone]⟩, rfl⟩

theorem revChanged_eq_map :
    ∀ ch, revChanged ch = ch.map (fun p => (p.1, reverseDiff p.2)) := by
  intro ch
  induction ch with
  | nil => rfl
  | cons p rest ih =>
    obtain ⟨k, cd⟩ := p
    rw [List.map_cons]
    show (k, reverseDiff cd) :: revChanged rest = _
    rw [ih]

theorem lookupF_map_snd {β γ : Type} (g : β → γ) :
    ∀ (l : List (String × β)) (k : String),
      lookupF (l.map (fun p => (p.1, g p.2))) k = (lookupF l k).map g := by
  intro l
  induction l with
  | nil => intro k; rfl
  | cons p rest ih =>
    intro k
    obtain ⟨k0, v0⟩ := p
    by_cases h : k0 = k
    · subst h
      simp [lookupF]
    · simp [lookupF, h, ih]

theorem map_fst_map_snd {β γ : Type} (g : β → γ) (l : List (String × β)) :
    (l.map (fun p => (p.1, g p.2))).map Prod.fst = l.map Prod.fst := by
  rw [List.map_map]
  rfl

theorem revOkF_mem :
    ∀ ch, revOkF ch = true → ∀ p ∈ ch, ReversibleDiff p.2 = true := by
  intro ch
  induction ch with
  | nil => intro _ p hp; cases hp
  | cons q rest ih =>
    intro h p hp
    obtain ⟨k, cd⟩ := q
    rw [revOkF, Bool.and_eq_true] at h
    rw [List.mem_cons] at hp
    rcases hp with hp | hp
    · subst hp
      exact h.1
    · exact ih h.2 p hp

theorem objChanged_nil_forall :
    ∀ (f1 f2 : List (String × Value)), objChanged f1 f2 = [] →
      ∀ k v w, (k, v) ∈ f1 → lookupF f2 k = some w →
        v = w ∨ createDiff v w = none := by
  intro f1
  induction f1 with
  | nil => intro f2 _ k v w hm; cases hm
  | cons p rest ih =>
    intro f2 hnil k v w hm hw
    obtain ⟨k0, v0⟩ := p
    rw [List.mem_cons] at hm
    cases hl : lookupF f2 k0 with
    | none =>
      have e : objChanged ((k0, v0) :: rest) f2 = objChanged rest f2 := by
        simp [objChanged, hl]
      rw [e] at hnil
      rcases hm with hm | hm
      · injection hm with h1 h2
        subst h1
        rw [hw] at hl
        exact Option.noConfusion hl
      · exact ih f2 hnil k v w hm hw
    | some w0 =>
      by_cases hvw : v0 = w0
      · have e : objChanged ((k0, v0) :: rest) f2 = objChanged rest f2 := by
          simp [objChanged, hl, hvw]
        rw [e] at hnil
        rcases hm with hm | hm
        · injection hm with h1 h2
          subst h1
          subst h2
          rw [hw] at hl
          injection hl with hl
          exact Or.inl (hvw.trans hl.symm)
        · exact ih f2 hnil k v w hm hw
      · cases hcd : createDiff v0 w0 with
        | none =>
          have e : objChanged ((k0, v0) :: rest) f2 = objChanged rest f2 := by
            simp [objChanged, hl, hvw, hcd]
          rw [e] at hnil
          rcases hm with hm | hm
          · injection hm with h1 h2
            subst h1
            subst h2
            rw [hw] at hl
            injection hl with hl
            subst hl
            exact Or.inr hcd
          · exact ih f2 hnil k v w hm hw
        | some d =>
          have e : objChanged ((k0, v0) :: rest) f2 = (k0, d) :: objChanged rest f2 := by
            simp [objChanged, hl, hvw, hcd]
          rw [e] at hnil
          exact List.noConfusion hnil

theorem arrItemsOf_nil_eq {a b : List Value} (h : arrItemsOf a b = []) : a = b := by
  unfold arrItemsOf at h
  rw [List.filterMap_eq_nil_iff] at h
  have hlen : a.length = b.length := by
    by_contra hne
    rcases Nat.lt_or_ge a.length b.length with hlt | hge
    · have hm := h a.length (by
        rw [List.mem_range]
        omega)
      rw [arrayItemAt_add le_rfl] at hm
      exact Option.noConfusion hm
    · have hba : b.length < a.length := by omega
      have hm := h b.length (by
        rw [List.mem_range]
        omega)
      rw [arrayItemAt_rem hba le_rfl] at hm
      exact Option.noConfusion hm
  apply List.ext_getElem?
  intro j
  by_cases hj : j < a.length
  · have hm := h j (by
      rw [List.mem_range]
      omega)
    rw [@arrayItemAt_lt a b j hj (by omega)] at hm
    have heq : a.getD j Value.vUndef = b.getD j Value.vUndef := by
      by_contra hne
      rw [if_pos (by simpa using hne)] at hm
      exact Option.noConfusion hm
    rw [getD_eq_getElem hj, getD_eq_getElem (show j < b.length by omega)] at heq
    rw [List.getElem?_eq_getElem hj,
      List.getElem?_eq_getElem (show j < b.length by omega), heq]
  · rw [List.getElem?_eq_none (show a.length ≤ j by omega),
      List.getElem?_eq_none (show b.length ≤ j by omega)]

/-! Inversion of `createDiff`, and destructors for the canonicity and
undefined-freedom predicates. -/

theorem createDiff_some_inv {v1 v2 : Value} {d : Diff}
    (h : createDiff v1 v2 = some d) :
    (∃ a b, v1 = .vArr a ∧ v2 = .vArr b ∧ d = .arr (arrItemsOf a b) ∧
      arrItemsOf a b ≠ []) ∨
    (∃ f1 f2, v1 = .vObj f1 ∧ v2 = .vObj f2 ∧
      d = .obj (objChanged f1 f2) (addedOf f1 f2) (deletedOf f1 f2)) ∨
    d = .value v1 v2 := by
  by_cases hv : v1 = v2
  · unfold createDiff at h
    rw [if_pos hv] at h
    exact Option.noConfusion h
  · unfold createDiff at h
    rw [if_neg hv] at h
    split at h
    · rename_i a b
      rw [createArrayDiff_eq] at h
      split at h
      · exact Option.noConfusion h
      · rename_i hne
        injection h with h
        subst h
        refine Or.inl ⟨a, b, rfl, rfl, rfl, ?_⟩
        intro hnil
        exact hne (by rw [hnil]; rfl)
    · rename_i f1 f2
      dsimp only [] at h
      split at h
      · exact Option.noConfusion h
      · injection h with h
        subst h
        exact Or.inr (Or.inl ⟨f1, f2, rfl, rfl, rfl⟩)
    · injection h with h
      subst h
      exact Or.inr (Or.inr rfl)

theorem createDiff_none_inv {v1 v2 : Value} (h : createDiff v1 v2 = none) :
    v1 = v2 ∨
    (∃ a b, v1 = .vArr a ∧ v2 = .vArr b ∧ arrItemsOf a b = []) ∨
    (∃ f1 f2, v1 = .vObj f1 ∧ v2 = .vObj f2 ∧ objChanged f1 f2 = [] ∧
      addedOf f1 f2 = [] ∧ deletedOf f1 f2 = []) := by
  by_cases hv : v1 = v2
  · exact Or.inl hv
  · unfold createDiff at h
    rw [if_neg hv] at h
    split at h
    · rename_i a b
      rw [createArrayDiff_eq] at h
      split at h
      · rename_i hemp
        exact Or.inr (Or.inl ⟨a, b, rfl, rfl, List.isEmpty_iff.mp hemp⟩)
      · exact Option.noConfusion h
    · rename_i f1 f2
      dsimp only [] at h
      split at h
      · rename_i hemp
        simp only [Bool.and_eq_true, List.isEmpty_iff] at hemp
        exact Or.inr (Or.inr ⟨f1, f2, rfl, rfl, hemp.1.1, hemp.1.2, hemp.2⟩)
      · exact Option.noConfusion h
    · exact Option.noConfusion h

theorem canonV_obj {fs : List (String × Value)} (h : canonV (.vObj fs) = true) :
    keysSorted fs = true ∧ canonF fs = true := by
  rw [canonV, Bool.and_eq_true] at h
  exact h

theorem canonF_mem :
    ∀ {fs : List (String × Value)}, canonF fs = true →
      ∀ {k : String} {v : Value}, (k, v) ∈ fs → canonV v = true := by
  intro fs
  induction fs with
  | nil => intro _ k v hm; cases hm
  | cons p rest ih =>
    intro h k v hm
    obtain ⟨k0, v0⟩ := p
    rw [canonF, Bool.and_eq_true] at h
    rw [List.mem_cons] at hm
    rcases hm with hm | hm
    · injection hm with h1 h2
      subst h2
      exact h.1
    · exact ih h.2 hm

theorem noUndef_obj {fs : List (String × Value)} (h : noUndef (.vObj fs) = true) :
    noUndefF fs = true := h

theorem noUndef_arr {xs : List Value} (h : noUndef (.vArr xs) = true) :
    noUndefL xs = true := h

theorem noUndefF_mem :
    ∀ {fs : List (String × Value)}, noUndefF fs = true →
      ∀ {k : String} {v : Value}, (k, v) ∈ fs → noUndef v = true := by
  intro fs
  induction fs with
  | nil => intro _ k v hm; cases hm
  | cons p rest ih =>
    intro h k v hm
    obtain ⟨k0, v0⟩ := p
    rw [noUndefF, Bool.and_eq_true] at h
    rw [List.mem_cons] at hm
    rcases hm with hm | hm
    · injection hm with h1 h2
      subst h2
      exact h.1
    · exact ih h.2 hm

theorem sizeOf_cd_lt {k : String} {cd : Diff} {ch : List (String × Diff)}
    (ad : List (String × Value)) (del : List String) (h : (k, cd) ∈ ch) :
    sizeOf cd < sizeOf (Diff.obj ch ad del) := by
  have h1 : sizeOf (k, cd) < sizeOf ch := List.sizeOf_lt_of_mem h
  have h2 : sizeOf cd < sizeOf (k, cd) := by simp
  simp only [Diff.obj.sizeOf_spec]
  omega

theorem addedOf_key_none {f1 f2 : List (String × Value)} {k : String}
    (h : k ∈ (addedOf f1 f2).map Prod.fst) : lookupF f1 k = none := by
  obtain ⟨q, hq, rfl⟩ := List.mem_map.mp h
  unfold addedOf at hq
  rw [List.mem_filter] at hq
  exact Option.isNone_iff_eq_none.mp hq.2

/-- On canonical values, a null diff means the values are equal: the
converse of `createDiff`'s identity shortcut. -/
theorem createDiff_none_eq :
    ∀ (n : Nat) (v1 : Value), sizeOf v1 ≤ n → ∀ v2, canonV v1 = true →
      canonV v2 = true → createDiff v1 v2 = none → v1 = v2 := by
  intro n
  induction n with
  | zero =>
    intro v1 h
    exfalso
    cases v1 <;> simp at h
  | succ n ih =>
    intro v1 hsz v2 hc1 hc2 hnone
    rcases createDiff_none_inv hnone with h |
      ⟨a, b, rfl, rfl, hnil⟩ | ⟨f1, f2, rfl, rfl, hch, had, hdel⟩
    · exact h
    · rw [arrItemsOf_nil_eq hnil]
    · congr 1
      obtain ⟨hs1, hf1⟩ := canonV_obj hc1
      obtain ⟨hs2, hf2⟩ := canonV_obj hc2
      apply sortedExt _ _ hs1 hs2
      intro k
      cases hl1 : lookupF f1 k with
      | none =>
        cases hl2 : lookupF f2 k with
        | none => rfl
        | some w =>
          exfalso
          have hads := (lookupF_addedOf f2 f1 k).1 hl1
          rw [had, hl2] at hads
          rw [lookupF] at hads
          exact Option.noConfusion hads
      | some v =>
        cases hl2 : lookupF f2 k with
        | none =>
          exfalso
          have hkd : k ∈ deletedOf f1 f2 :=
            mem_deletedOf_iff.mpr ⟨v, lookupF_some_mem hl1, hl2⟩
          rw [hdel] at hkd
          cases hkd
        | some w =>
          have hmem := lookupF_some_mem hl1
          rcases objChanged_nil_forall f1 f2 hch k v w hmem hl2 with he | hcd
          · rw [he]
          · have hv : canonV v = true := canonF_mem hf1 hmem
            have hw : canonV w = true := canonF_mem hf2 (lookupF_some_mem hl2)
            have hszv : sizeOf v ≤ n := by
              have hx1 := sizeOf_snd_lt_of_mem hmem
              have hx2 : sizeOf f1 < sizeOf (Value.vObj f1) := by simp
              omega
            rw [ih v hszv w hv hw hcd]

/-- The forward round-trip master: on canonical values with an
undefined-free target, applying the created delta to the old value yields
the new value. -/
theorem applyDiff_createDiff :
    ∀ (n : Nat) (d : Diff), sizeOf d ≤ n → ∀ v1 v2, canonV v1 = true →
      canonV v2 = true → noUndef v2 = true → createDiff v1 v2 = some d →
      applyDiff v1 d = v2 := by
  intro n
  induction n with
  | zero =>
    intro d h
    exfalso
    cases d <;> simp at h
  | succ n ih =>
    intro d hsz v1 v2 hc1 hc2 hnu hcr
    rcases createDiff_some_inv hcr with ⟨a, b, rfl, rfl, rfl, hne⟩ |
      ⟨f1, f2, rfl, rfl, rfl⟩ | rfl
    · show Value.vArr (applyArrayDiff a (arrItemsOf a b)) = Value.vArr b
      rw [applyArrayDiff_create (noUndef_arr hnu)]
    · show Value.vObj (applyDeleted (applyAdded
        (applyChanged f1 (objChanged f1 f2)) (addedOf f1 f2)) (deletedOf f1 f2)) =
        Value.vObj f2
      congr 1
      obtain ⟨hs1, hf1⟩ := canonV_obj hc1
      obtain ⟨hs2, hf2⟩ := canonV_obj hc2
      have hnd1 := keysSorted_nodup hs1
      have hchnd : ((objChanged f1 f2).map Prod.fst).Nodup :=
        (objChanged_keys_sublist f1 f2).nodup hnd1
      have hchsome : ∀ p ∈ objChanged f1 f2, (lookupF f1 p.1).isSome = true := by
        intro p hp
        have hm1 : p.1 ∈ (objChanged f1 f2).map Prod.fst :=
          List.mem_map.mpr ⟨p, hp, rfl⟩
        have hm2 : p.1 ∈ f1.map Prod.fst :=
          (objChanged_keys_sublist f1 f2).subset hm1
        cases hl : lookupF f1 p.1 with
        | some v => rfl
        | none =>
          rw [lookupF_eq_none_iff] at hl
          exact absurd hm2 hl
      have hCH := lookupF_applyChanged (objChanged f1 f2) f1 hchnd hchsome
      have hsortch := keysSorted_applyChanged (objChanged f1 f2) f1 hs1
      have hadnd : ((addedOf f1 f2).map Prod.fst).Nodup := addedOf_keys_nodup hs2
      have hAD := lookupF_applyAdded (addedOf f1 f2)
        (applyChanged f1 (objChanged f1 f2)) hadnd
      have hsortad := keysSorted_applyAdded (addedOf f1 f2) _ hsortch
      have hDEL := lookupF_applyDeleted (deletedOf f1 f2) _ hsortad
      have hsortdel := keysSorted_applyDeleted (deletedOf f1 f2) _ hsortad
      apply sortedExt _ _ hsortdel hs2
      intro k
      rw [hDEL k]
      by_cases hkdel : k ∈ deletedOf f1 f2
      · rw [if_pos hkdel]
        obtain ⟨v, hvmem, hl2⟩ := mem_deletedOf_iff.mp hkdel
        rw [hl2]
      · rw [if_neg hkdel]
        cases hl1 : lookupF f1 k with
        | none =>
          have hadk := (lookupF_addedOf f2 f1 k).1 hl1
          cases hl2 : lookupF f2 k with
          | none =>
            rw [hl2] at hadk
            rw [(hAD k).1 hadk, (hCH k).1 (objChanged_lookup_none hl1), hl1]
          | some w =>
            rw [hl2] at hadk
            rw [(hAD k).2 w hadk]
        | some v =>
          have hadk := (lookupF_addedOf f2 f1 k).2 (by rw [hl1]; rfl)
          rw [(hAD k).1 hadk]
          cases hl2 : lookupF f2 k with
          | none =>
            exfalso
            exact hkdel (mem_deletedOf_iff.mpr ⟨v, lookupF_some_mem hl1, hl2⟩)
          | some w =>
            have hoc := (lookupF_objChanged f1 f2 hs1 k).2 v w hl1 hl2
            by_cases hvw : v = w
            · rw [if_pos hvw] at hoc
              rw [(hCH k).1 hoc, hl1, hvw]
            · rw [if_neg hvw] at hoc
              cases hcd : createDiff v w with
              | none =>
                exfalso
                have hv : canonV v = true := canonF_mem hf1 (lookupF_some_mem hl1)
                have hw : canonV w = true := canonF_mem hf2 (lookupF_some_mem hl2)
                exact hvw (createDiff_none_eq (sizeOf v) v le_rfl w hv hw hcd)
              | some cd =>
                rw [hcd] at hoc
                have hv : canonV v = true := canonF_mem hf1 (lookupF_some_mem hl1)
                have hw : canonV w = true := canonF_mem hf2 (lookupF_some_mem hl2)
                have hnw : noUndef w = true :=
                  noUndefF_mem (noUndef_obj hnu) (lookupF_some_mem hl2)
                have hszcd : sizeOf cd ≤ n := by
                  have hx1 := sizeOf_cd_lt (addedOf f1 f2) (deletedOf f1 f2)
                    (lookupF_some_mem hoc)
                  omega
                rw [(hCH k).2 cd hoc, hl1, Option.map_some',
                  ih cd hszcd v w hv hw hnw hcd]
    · rfl

/-- The reverse round-trip master: on canonical values, when the created
delta is reversible (no object deletions, no plain array replacements),
applying the reversed delta to the new value restores the old one. -/
theorem applyDiff_reverseDiff :
    ∀ (n : Nat) (d : Diff), sizeOf d ≤ n → ∀ v1 v2, canonV v1 = true →
      canonV v2 = true → createDiff v1 v2 = some d →
      ReversibleDiff d = true → applyDiff v2 (reverseDiff d) = v1 := by
  intro n
  induction n with
  | zero =>
    intro d h
    exfalso
    cases d <;> simp at h
  | succ n ih =>
    intro d hsz v1 v2 hc1 hc2 hcr hrv
    rcases createDiff_some_inv hcr with ⟨a, b, rfl, rfl, rfl, hne⟩ |
      ⟨f1, f2, rfl, rfl, rfl⟩ | rfl
    · show Value.vArr (applyArrayDiff b ((arrItemsOf a b).map (fun it =>
        ({ index := it.index, value := it.value, added := it.removed,
           removed := it.added } : ArrItem)))) = Value.vArr a
      unfold ReversibleDiff at hrv
      rw [applyArrayDiff_reverse hne hrv]
    · unfold ReversibleDiff at hrv
      rw [Bool.and_eq_true] at hrv
      obtain ⟨hde, hrok⟩ := hrv
      have hdel : deletedOf f1 f2 = [] := by
        cases h0 : deletedOf f1 f2 with
        | nil => rfl
        | cons x l =>
          rw [h0] at hde
          exact Bool.noConfusion hde
      show Value.vObj (applyDeleted (applyAdded
        (applyChanged f2 (revChanged (objChanged f1 f2)))
        ((deletedOf f1 f2).map (fun k => (k, Value.vUndef))))
        ((addedOf f1 f2).map Prod.fst)) = Value.vObj f1
      rw [hdel]
      congr 1
      show applyDeleted (applyChanged f2 (revChanged (objChanged f1 f2)))
        ((addedOf f1 f2).map Prod.fst) = f1
      obtain ⟨hs1, hf1⟩ := canonV_obj hc1
      obtain ⟨hs2, hf2⟩ := canonV_obj hc2
      have hnd1 := keysSorted_nodup hs1
      have hchnd : ((objChanged f1 f2).map Prod.fst).Nodup :=
        (objChanged_keys_sublist f1 f2).nodup hnd1
      have hrc : ∀ k, lookupF (revChanged (objChanged f1 f2)) k =
          (lookupF (objChanged f1 f2) k).map reverseDiff := by
        intro k
        rw [revChanged_eq_map, lookupF_map_snd]
      have hrnd : ((revChanged (objChanged f1 f2)).map Prod.fst).Nodup := by
        rw [revChanged_eq_map, map_fst_map_snd]
        exact hchnd
      have hsome : ∀ p ∈ revChanged (objChanged f1 f2),
          (lookupF f2 p.1).isSome = true := by
        intro p hp
        rw [revChanged_eq_map, List.mem_map] at hp
        obtain ⟨q, hq, rfl⟩ := hp
        show (lookupF f2 q.1).isSome = true
        have hk1 : q.1 ∈ f1.map Prod.fst :=
          (objChanged_keys_sublist f1 f2).subset (List.mem_map.mpr ⟨q, hq, rfl⟩)
        cases hlf1 : lookupF f1 q.1 with
        | none =>
          rw [lookupF_eq_none_iff] at hlf1
          exact absurd hk1 hlf1
        | some v =>
          cases hlf2 : lookupF f2 q.1 with
          | some w => rfl
          | none =>
            exfalso
            have hmem : q.1 ∈ deletedOf f1 f2 :=
              mem_deletedOf_iff.mpr ⟨v, lookupF_some_mem hlf1, hlf2⟩
            rw [hdel] at hmem
            exact List.not_mem_nil _ hmem
      have hCH := lookupF_applyChanged (revChanged (objChanged f1 f2)) f2 hrnd hsome
      have hsortch := keysSorted_applyChanged (revChanged (objChanged f1 f2)) f2 hs2
      have hDEL := lookupF_applyDeleted ((addedOf f1 f2).map Prod.fst) _ hsortch
      have hsortdel := keysSorted_applyDeleted ((addedOf f1 f2).map Prod.fst) _ hsortch
      apply sortedExt _ _ hsortdel hs1
      intro k
      rw [hDEL k]
      by_cases hkad : k ∈ (addedOf f1 f2).map Prod.fst
      · rw [if_pos hkad, addedOf_key_none hkad]
      · rw [if_neg hkad]
        cases hl1 : lookupF f1 k with
        | none =>
          have hrcn : lookupF (revChanged (objChanged f1 f2)) k = none := by
            rw [hrc k, objChanged_lookup_none hl1]
            rfl
          rw [(hCH k).1 hrcn]
          cases hl2 : lookupF f2 k with
          | none => rfl
          | some w =>
            exfalso
            apply hkad
            have had : lookupF (addedOf f1 f2) k = some w := by
              rw [(lookupF_addedOf f2 f1 k).1 hl1, hl2]
            exact List.mem_map.mpr ⟨(k, w), lookupF_some_mem had, rfl⟩
        | some v =>
          cases hl2 : lookupF f2 k with
          | none =>
            exfalso
            have hmem : k ∈ deletedOf f1 f2 :=
              mem_deletedOf_iff.mpr ⟨v, lookupF_some_mem hl1, hl2⟩
            rw [hdel] at hmem
            exact List.not_mem_nil _ hmem
          | some w =>
            have hoc := (lookupF_objChanged f1 f2 hs1 k).2 v w hl1 hl2
            by_cases hvw : v = w
            · rw [if_pos hvw] at hoc
              have hrcn : lookupF (revChanged (objChanged f1 f2)) k = none := by
                rw [hrc k, hoc]
                rfl
              rw [(hCH k).1 hrcn, hl2, hvw]
            · rw [if_neg hvw] at hoc
              cases hcd : createDiff v w with
              | none =>
                exfalso
                have hv : canonV v = true := canonF_mem hf1 (lookupF_some_mem hl1)
                have hw : canonV w = true := canonF_mem hf2 (lookupF_some_mem hl2)
                exact hvw (createDiff_none_eq (sizeOf v) v le_rfl w hv hw hcd)
              | some cd =>
                rw [hcd] at hoc
                have hrcs : lookupF (revChanged (objChanged f1 f2)) k =
                    some (reverseDiff cd) := by
                  rw [hrc k, hoc]
                  rfl
                have hv : canonV v = true := canonF_mem hf1 (lookupF_some_mem hl1)
                have hw : canonV w = true := canonF_mem hf2 (lookupF_some_mem hl2)
                have hmemch : (k, cd) ∈ objChanged f1 f2 := lookupF_some_mem hoc
                have hszcd : sizeOf cd ≤ n := by
                  have hx := sizeOf_cd_lt (addedOf f1 f2) (deletedOf f1 f2) hmemch
                  omega
                have hrevcd : ReversibleDiff cd = true :=
                  revOkF_mem _ hrok (k, cd) hmemch
                rw [(hCH k).2 (reverseDiff cd) hrcs, hl2, Option.map_some',
                  ih cd hszcd v w hv hw hcd hrevcd]
    · rfl

/-- C2 (amended). Forward round-trip: for canonical values v1, v2 with v2
free of undefined, whenever createDiff v1 v2 is non-null, applying the
delta to v1 yields v2. The undefined-freedom hypothesis is necessary: a
new array slot holding undefined produces a replacement item that
applyArrayDiff skips (see the counterexample). -/
theorem C2_forward_roundtrip (v1 v2 : Value) (d : Diff)
    (h1 : canonV v1 = true) (h2 : canonV v2 = true) (h3 : noUndef v2 = true)
    (h4 : createDiff v1 v2 = some d) : applyDiff v1 d = v2 :=
  applyDiff_createDiff (sizeOf d) d le_rfl v1 v2 h1 h2 h3 h4

/-- Witness for C2 on the spec section 8 example: patching the object
with fields a=1, b=2 into the object with fields b=3, c=4. -/
theorem C2_witness :
    canonV (Value.vObj [("a", Value.vNum 1), ("b", Value.vNum 2)]) = true ∧
    noUndef (Value.vObj [("b", Value.vNum 3), ("c", Value.vNum 4)]) = true ∧
    createDiff (Value.vObj [("a", Value.vNum 1), ("b", Value.vNum 2)])
        (Value.vObj [("b", Value.vNum 3), ("c", Value.vNum 4)]) =
      some ((createDiff (Value.vObj [("a", Value.vNum 1), ("b", Value.vNum 2)])
        (Value.vObj [("b", Value.vNum 3), ("c", Value.vNum 4)])).getD
        (Diff.value Value.vUndef Value.vUndef)) ∧
    applyDiff (Value.vObj [("a", Value.vNum 1), ("b", Value.vNum 2)])
        ((createDiff (Value.vObj [("a", Value.vNum 1), ("b", Value.vNum 2)])
          (Value.vObj [("b", Value.vNum 3), ("c", Value.vNum 4)])).getD
          (Diff.value Value.vUndef Value.vUndef)) =
      Value.vObj [("b", Value.vNum 3), ("c", Value.vNum 4)] :=
  ⟨by decide, by decide, rfl,
   C2_forward_roundtrip _ _ _ (by decide) (by decide) (by decide) rfl⟩

/-- Counterexample to the unamended C2: both values are arrays (matching
shape), the delta is non-null, yet the round trip fails because the new
slot value undefined makes applyArrayDiff skip the replacement. -/
theorem C2_counterexample :
    (createDiff (Value.vArr [Value.vNum 1]) (Value.vArr [Value.vUndef])).isSome
      = true ∧
    applyDiff (Value.vArr [Value.vNum 1])
        ((createDiff (Value.vArr [Value.vNum 1])
          (Value.vArr [Value.vUndef])).getD
          (Diff.value Value.vUndef Value.vUndef)) ≠
      Value.vArr [Value.vUndef] := by
  refine ⟨rfl, ?_⟩
  decide

/-- C1 (amended). Reverse round-trip: for canonical values v1, v2,
whenever createDiff v1 v2 is non-null AND the produced delta is
reversible — no object deletions (reverseDiff fabricates undefined for
those) and no plain array replacements (reverseDiff keeps the new value
for those), recursively — applying the reversed delta to v2 restores v1. -/
theorem C1_reverse_roundtrip (v1 v2 : Value) (d : Diff)
    (h1 : canonV v1 = true) (h2 : canonV v2 = true)
    (h3 : createDiff v1 v2 = some d) (h4 : ReversibleDiff d = true) :
    applyDiff v2 (reverseDiff d) = v1 :=
  applyDiff_reverseDiff (sizeOf d) d le_rfl v1 v2 h1 h2 h3 h4

/-- Witness for C1: the object with field a=1 changed to the object with
fields a=2, b=5 (one changed entry, one added entry, no deletions); the
reversed delta restores the original object. -/
theorem C1_witness :
    canonV (Value.vObj [("a", Value.vNum 1)]) = true ∧
    createDiff (Value.vObj [("a", Value.vNum 1)])
        (Value.vObj [("a", Value.vNum 2), ("b", Value.vNum 5)]) =
      some ((createDiff (Value.vObj [("a", Value.vNum 1)])
        (Value.vObj [("a", Value.vNum 2), ("b", Value.vNum 5)])).getD
        (Diff.value Value.vUndef Value.vUndef)) ∧
    ReversibleDiff ((createDiff (Value.vObj [("a", Value.vNum 1)])
        (Value.vObj [("a", Value.vNum 2), ("b", Value.vNum 5)])).getD
        (Diff.value Value.vUndef Value.vUndef)) = true ∧
    applyDiff (Value.vObj [("a", Value.vNum 2), ("b", Value.vNum 5)])
        (reverseDiff ((createDiff (Value.vObj [("a", Value.vNum 1)])
          (Value.vObj [("a", Value.vNum 2), ("b", Value.vNum 5)])).getD
          (Diff.value Value.vUndef Value.vUndef))) =
      Value.vObj [("a", Value.vNum 1)] :=
  ⟨by decide, rfl, by decide,
   C1_reverse_roundtrip _ _ _ (by decide) (by decide) rfl (by decide)⟩

/-- Counterexample to the unamended C1: two one-element number arrays.
The delta is a plain positional replacement; reverseDiff only swaps its
added and removed flags, keeping the NEW value, so applying the reversed
delta to the new array returns the new array, not the old one. -/
theorem C1_counterexample :
    (createDiff (Value.vArr [Value.vNum 1]) (Value.vArr [Value.vNum 2])).isSome
      = true ∧
    applyDiff (Value.vArr [Value.vNum 2])
        (reverseDiff ((createDiff (Value.vArr [Value.vNum 1])
          (Value.vArr [Value.vNum 2])).getD
          (Diff.value Value.vUndef Value.vUndef))) ≠
      Value.vArr [Value.vNum 1] := by
  refine ⟨rfl, ?_⟩
  decide

end JotaiHistory
